import Mathlib

/-!
# EDB — a fixed-record-size table over a byte store

Shallow embedding of `src/EDB.cpp` (Extended Database Library for Arduino).

* The byte store behind the two callbacks `_write_byte` / `_read_byte` is a
  total memory `Nat → Byte`: a read returns the last byte written at that
  address.
* `unsigned long` and `unsigned int` values are natural numbers; every
  arithmetic operation of the source wraps explicitly modulo `2 ^ ulongBits`
  (resp. `2 ^ uintBits`).  Arguments are expected to lie in the range of their
  C parameter type; theorems that depend on it say so.
* The two `for` loops over record numbers (`deleteRec`, `insertRec`) take
  fuel: the result is `none` when the fuel runs out, which is how a loop that
  never terminates shows up.
* `EDB.h` is not part of the sources: what it declares (widths, `EDB_FLAG`,
  the layout of `EDB_Header`) is collected in `Platform`.
-/

/-- One byte of the storage medium. -/
abbrev Byte := Fin 256

/-- The storage medium: one byte at every address. -/
abbrev Store := Nat → Byte

/-- Status codes returned by the public functions (`EDB_Status`). -/
inductive EDB_Status where
  | EDB_OK
  | EDB_ERROR
  | EDB_OUT_OF_RANGE
  | EDB_TABLE_FULL
  deriving DecidableEq, Repr

/-- Modelled from the spec: the declaration of `struct EDB_Header` lives in
`EDB.h`, which is missing.  The four fields are the ones the spec lists
(flag, record_count, record_size, table_size) under the names `EDB.cpp` uses.
`n_recs` and `table_size` are taken to be `unsigned long` and `rec_size` to be
`unsigned int`, the types of `count()` and of the parameters of `create`. -/
structure EDB_Header where
  flag : Nat
  n_recs : Nat
  rec_size : Nat
  table_size : Nat
  deriving DecidableEq, Repr

/-- Modelled from the spec: everything `EDB.cpp` takes from the missing
`EDB.h` and from the target compiler.  `ulongBits` / `uintBits` are the widths
of `unsigned long` / `unsigned int`, `flagBits` the width of the `flag` field,
`headerSize` is `sizeof(EDB_Header)`, `EDB_FLAG` the sentinel, and
`encodeHead` / `decodeHead` give the object representation of the header
struct (what the cast `EDB_REC EDB_head` exposes as raw bytes).  `malloc n` is
the indeterminate content of a freshly allocated block of `n` bytes. -/
structure Platform where
  ulongBits : Nat
  uintBits : Nat
  flagBits : Nat
  headerSize : Nat
  EDB_FLAG : Nat
  encodeHead : EDB_Header → List Byte
  decodeHead : List Byte → EDB_Header
  malloc : Nat → List Byte

/-- Number of `unsigned long` values: arithmetic on them is modulo this. -/
def Platform.ulongMod (P : Platform) : Nat := 2 ^ P.ulongBits

/-- Number of `unsigned int` values. -/
def Platform.uintMod (P : Platform) : Nat := 2 ^ P.uintBits

/-- Unsigned-long subtraction `a - b`, wrapping. -/
def Platform.usub (P : Platform) (a b : Nat) : Nat :=
  (a + P.ulongMod - b % P.ulongMod) % P.ulongMod

/-- Unsigned-long addition `a + b`, wrapping. -/
def Platform.uadd (P : Platform) (a b : Nat) : Nat :=
  (a + b) % P.ulongMod

/-- Unsigned-long multiplication `a * b`, wrapping. -/
def Platform.umul (P : Platform) (a b : Nat) : Nat :=
  (a * b) % P.ulongMod

/-- The engine object: the byte store behind the callbacks together with the
private members `EDB_head_ptr`, `EDB_table_ptr` and `EDB_head`. -/
structure EDB where
  store : Store
  EDB_head_ptr : Nat
  EDB_table_ptr : Nat
  EDB_head : EDB_Header

/-- The write callback: store `v` at address `ee`. -/
def _write_byte (st : Store) (ee : Nat) (v : Byte) : Store :=
  fun a => if a = ee then v else st a

/-- The read callback: the byte at address `ee`. -/
def _read_byte (st : Store) (ee : Nat) : Byte := st ee

namespace EDB

/-- `EDB::edbWrite`: `recsize` calls `_write_byte(ee++, *p++)`.  The buffer
`p` is the list of bytes at the pointer; a read past its end (undefined in C)
yields `0`. -/
def edbWrite (P : Platform) (st : Store) (ee : Nat) (p : List Byte) : Nat → Store
  | 0 => st
  | recsize + 1 =>
      edbWrite P (_write_byte st ee (p.headD 0)) (P.uadd ee 1) p.tail recsize

/-- `EDB::edbRead`: `recsize` calls `*p++ = _read_byte(ee++)`; the result is
the `recsize` bytes stored through `p`. -/
def edbRead (P : Platform) (st : Store) (ee : Nat) : Nat → List Byte
  | 0 => []
  | recsize + 1 => _read_byte st ee :: edbRead P st (P.uadd ee 1) recsize

/-- The length argument `(unsigned long)sizeof(EDB_Header)` as received by the
`unsigned int recsize` parameter of `edbWrite` / `edbRead`. -/
def headLen (P : Platform) : Nat := P.headerSize % P.ulongMod % P.uintMod

/-- `EDB::writeHead`. -/
def writeHead (P : Platform) (t : EDB) : EDB :=
  { t with store := edbWrite P t.store t.EDB_head_ptr (P.encodeHead t.EDB_head) (headLen P) }

/-- `EDB::readHead`. -/
def readHead (P : Platform) (t : EDB) : EDB :=
  { t with EDB_head := P.decodeHead (edbRead P t.store t.EDB_head_ptr (headLen P)) }

/-- `EDB::create`. -/
def create (P : Platform) (t : EDB) (head_ptr tablesize recsize : Nat) : EDB_Status × EDB :=
  let t1 : EDB :=
    { t with
      EDB_head_ptr := head_ptr
      EDB_table_ptr := P.uadd P.headerSize head_ptr
      EDB_head :=
        { flag := P.EDB_FLAG, n_recs := 0, rec_size := recsize, table_size := tablesize } }
  (EDB_Status.EDB_OK, writeHead P t1)

/-- `EDB::open`. -/
def openTable (P : Platform) (t : EDB) (head_ptr : Nat) : EDB_Status × EDB :=
  let t1 : EDB :=
    { t with EDB_head_ptr := head_ptr, EDB_table_ptr := P.uadd P.headerSize head_ptr }
  let t2 := readHead P t1
  if t2.EDB_head.flag = P.EDB_FLAG then (EDB_Status.EDB_OK, t2)
  else (EDB_Status.EDB_ERROR, t2)

/-- The address expression `EDB_table_ptr + ((recno - 1) * EDB_head.rec_size)`
shared by `writeRec` and `readRec`. -/
def recAddr (P : Platform) (t : EDB) (recno : Nat) : Nat :=
  P.uadd t.EDB_table_ptr (P.umul (P.usub recno 1) t.EDB_head.rec_size)

/-- `EDB::writeRec`. -/
def writeRec (P : Platform) (t : EDB) (recno : Nat) (rec : List Byte) : EDB_Status × EDB :=
  (EDB_Status.EDB_OK,
    { t with store := edbWrite P t.store (recAddr P t recno) rec t.EDB_head.rec_size })

/-- `EDB::readRec`: status, content of the buffer `rec` afterwards, engine. -/
def readRec (P : Platform) (t : EDB) (recno : Nat) (rec : List Byte) :
    EDB_Status × List Byte × EDB :=
  if recno < 1 ∨ recno > t.EDB_head.n_recs then (EDB_Status.EDB_OUT_OF_RANGE, rec, t)
  else (EDB_Status.EDB_OK, edbRead P t.store (recAddr P t recno) t.EDB_head.rec_size, t)

/-- `EDB::count`. -/
def count (t : EDB) : Nat := t.EDB_head.n_recs

/-- `EDB::limit`.  Division by `rec_size = 0` is undefined in C; here it
follows `Nat` division. -/
def limit (P : Platform) (t : EDB) : Nat :=
  P.usub t.EDB_head.table_size P.headerSize / t.EDB_head.rec_size

/-- The loop of `EDB::deleteRec`:
`for (i = recno + 1; i <= n_recs; i++) { readRec(i, rec); writeRec(i - 1, rec); }`
started at `i`, with `rec` the current content of the scratch buffer. -/
def deleteLoop (P : Platform) : Nat → EDB → Nat → List Byte → Option EDB
  | 0, _, _, _ => none
  | fuel + 1, t, i, rec =>
      if i ≤ t.EDB_head.n_recs then
        let r := readRec P t i rec
        let w := writeRec P r.2.2 (P.usub i 1) r.2.1
        deleteLoop P fuel w.2 (P.uadd i 1) r.2.1
      else some t

/-- `EDB::deleteRec`. -/
def deleteRec (P : Platform) (fuel : Nat) (t : EDB) (recno : Nat) : Option (EDB_Status × EDB) :=
  if recno < 0 ∨ recno > t.EDB_head.n_recs then some (EDB_Status.EDB_OUT_OF_RANGE, t)
  else
    match deleteLoop P fuel t (P.uadd recno 1) (P.malloc t.EDB_head.rec_size) with
    | none => none
    | some t1 =>
        let t2 : EDB :=
          { t1 with EDB_head := { t1.EDB_head with n_recs := P.usub t1.EDB_head.n_recs 1 } }
        some (EDB_Status.EDB_OK, writeHead P t2)

/-- `EDB::appendRec`. -/
def appendRec (P : Platform) (t : EDB) (rec : List Byte) : EDB_Status × EDB :=
  if P.uadd t.EDB_head.n_recs 1 > limit P t then (EDB_Status.EDB_TABLE_FULL, t)
  else
    let t1 : EDB :=
      { t with EDB_head := { t.EDB_head with n_recs := P.uadd t.EDB_head.n_recs 1 } }
    let t2 := (writeRec P t1 t1.EDB_head.n_recs rec).2
    (EDB_Status.EDB_OK, writeHead P t2)

/-- The loop of `EDB::insertRec`:
`for (i = n_recs; i >= recno; i--) { readRec(i, buf); writeRec(i + 1, buf); }`
started at `i`, with `buf` the current content of the scratch buffer. -/
def insertLoop (P : Platform) (recno : Nat) : Nat → EDB → Nat → List Byte → Option EDB
  | 0, _, _, _ => none
  | fuel + 1, t, i, buf =>
      if i ≥ recno then
        let r := readRec P t i buf
        let w := writeRec P r.2.2 (P.uadd i 1) r.2.1
        insertLoop P recno fuel w.2 (P.usub i 1) r.2.1
      else some t

/-- `EDB::insertRec`. -/
def insertRec (P : Platform) (fuel : Nat) (t : EDB) (recno : Nat) (rec : List Byte) :
    Option (EDB_Status × EDB) :=
  if count t = limit P t then some (EDB_Status.EDB_TABLE_FULL, t)
  else if count t > 0 ∧ (recno < 0 ∨ recno > t.EDB_head.n_recs) then
    some (EDB_Status.EDB_OUT_OF_RANGE, t)
  else if count t = 0 ∧ recno = 1 then some (appendRec P t rec)
  else
    match insertLoop P recno fuel t t.EDB_head.n_recs (P.malloc t.EDB_head.rec_size) with
    | none => none
    | some t1 =>
        let t2 := (writeRec P t1 recno rec).2
        let t3 : EDB :=
          { t2 with EDB_head := { t2.EDB_head with n_recs := P.uadd t2.EDB_head.n_recs 1 } }
        some (EDB_Status.EDB_OK, writeHead P t3)

/-- `EDB::updateRec`. -/
def updateRec (P : Platform) (t : EDB) (recno : Nat) (rec : List Byte) : EDB_Status × EDB :=
  if recno < 0 ∨ recno > t.EDB_head.n_recs then (EDB_Status.EDB_OUT_OF_RANGE, t)
  else (EDB_Status.EDB_OK, (writeRec P t recno rec).2)

/-- `EDB::clear`. -/
def clear (P : Platform) (t : EDB) : EDB :=
  let t1 := readHead P t
  (create P t1 t1.EDB_head_ptr t1.EDB_head.table_size t1.EDB_head.rec_size).2

end EDB

/-! ## Platforms -/

/-- The values of a header fit the C types of its fields. -/
structure HeaderInRange (P : Platform) (h : EDB_Header) : Prop where
  flag_lt : h.flag < 2 ^ P.flagBits
  n_recs_lt : h.n_recs < P.ulongMod
  rec_size_lt : h.rec_size < P.uintMod
  table_size_lt : h.table_size < P.ulongMod

/-- What is assumed of a platform: `unsigned int` is no wider than
`unsigned long`, the header is not empty and its size fits an `unsigned int`,
the sentinel fits the flag field, and the object representation of a header
has `sizeof(EDB_Header)` bytes from which the field values are read back. -/
structure Platform.Valid (P : Platform) : Prop where
  uint_le_ulong : P.uintBits ≤ P.ulongBits
  header_pos : 0 < P.headerSize
  header_lt : P.headerSize < P.uintMod
  flag_lt : P.EDB_FLAG < 2 ^ P.flagBits
  encode_length : ∀ h, (P.encodeHead h).length = P.headerSize
  decode_encode : ∀ h, HeaderInRange P h → P.decodeHead (P.encodeHead h) = h

/-- The low byte of a number. -/
def byteOf (n : Nat) : Byte := ⟨n % 256, Nat.mod_lt _ (by decide)⟩

/-- Little-endian representation of `n` on `k` bytes. -/
def leBytes : Nat → Nat → List Byte
  | 0, _ => []
  | k + 1, n => byteOf n :: leBytes k (n / 256)

/-- The number a little-endian byte string stands for. -/
def leNat : List Byte → Nat
  | [] => 0
  | b :: bs => b.val + 256 * leNat bs

/-- Modelled from the spec: `EDB.h` is missing; this is the header layout of
an 8-bit AVR Arduino (no padding, little-endian): `flag` on 1 byte, `n_recs`
on 4, `rec_size` on 2, `table_size` on 4, so `sizeof(EDB_Header) = 11`. -/
def avrEncodeHead (h : EDB_Header) : List Byte :=
  leBytes 1 h.flag ++ leBytes 4 h.n_recs ++ leBytes 2 h.rec_size ++ leBytes 4 h.table_size

/-- Modelled from the spec: inverse reading of the AVR header layout. -/
def avrDecodeHead (bs : List Byte) : EDB_Header :=
  { flag := leNat (bs.take 1)
    n_recs := leNat ((bs.drop 1).take 4)
    rec_size := leNat ((bs.drop 5).take 2)
    table_size := leNat ((bs.drop 7).take 4) }

/-- Modelled from the spec: the 8-bit AVR Arduino target, `unsigned long` on
32 bits, `unsigned int` on 16 bits, `EDB_FLAG = B11011011`; a fresh block
from `malloc` is taken to be filled with `0xAA`. -/
def avr : Platform :=
  { ulongBits := 32
    uintBits := 16
    flagBits := 8
    headerSize := 11
    EDB_FLAG := 0xDB
    encodeHead := avrEncodeHead
    decodeHead := avrDecodeHead
    malloc := fun n => List.replicate n 0xAA }

/-- A store holding `0` everywhere. -/
def zeroStore : Store := fun _ => 0

/-- An engine object before `create` / `open`. -/
def blank : EDB :=
  { store := zeroStore, EDB_head_ptr := 0, EDB_table_ptr := 0,
    EDB_head := { flag := 0, n_recs := 0, rec_size := 0, table_size := 0 } }

/-! ## Predicates on tables -/

namespace EDB

/-- The bytes of record slot `i` (1-based) of a table whose first slot starts
at `tp` and whose records have `rs` bytes. -/
def slotBytes (P : Platform) (st : Store) (tp rs i : Nat) : List Byte :=
  edbRead P st (tp + (i - 1) * rs) rs

/-- Layout facts under which the address arithmetic of the first `L` record
slots is exact: records are not empty, the slots start right after the header
and end inside the address space. -/
structure Layout (P : Platform) (t : EDB) (L : Nat) : Prop where
  rec_size_pos : 1 ≤ t.EDB_head.rec_size
  table_ptr_eq : t.EDB_table_ptr = t.EDB_head_ptr + P.headerSize
  slots_fit : t.EDB_table_ptr + L * t.EDB_head.rec_size ≤ P.ulongMod
  slots_lt : L + 1 < P.ulongMod

/-- An open table: the state `create` or a successful `open` leaves behind.
The pointers are those computed from the base address, the flag is the
sentinel and the header values fit their C types. -/
structure IsOpen (P : Platform) (t : EDB) : Prop where
  head_ptr_lt : t.EDB_head_ptr < P.ulongMod
  table_ptr_eq : t.EDB_table_ptr = P.uadd P.headerSize t.EDB_head_ptr
  flag_eq : t.EDB_head.flag = P.EDB_FLAG
  in_range : HeaderInRange P t.EDB_head

/-- A well-formed open table: records are not empty, the table holds at least
its header, the table region `[base, base + table_size)` does not run past the
end of the address space, and the capacity invariant holds. -/
structure WellFormed (P : Platform) (t : EDB) : Prop where
  isOpen : IsOpen P t
  rec_size_pos : 1 ≤ t.EDB_head.rec_size
  header_le : P.headerSize ≤ t.EDB_head.table_size
  no_overflow : t.EDB_head_ptr + t.EDB_head.table_size ≤ P.ulongMod
  capacity : count t ≤ limit P t

end EDB

/-! ## Observations and sample tables -/

namespace EDB

/-- What the caller of `readRec` observes: the status and the buffer. -/
def readResult (P : Platform) (t : EDB) (recno : Nat) (buf : List Byte) :
    EDB_Status × List Byte :=
  ((readRec P t recno buf).1, (readRec P t recno buf).2.1)

end EDB

/-- Four pairwise distinct 4-byte records. -/
def recA : List Byte := [1, 2, 3, 4]

/-- Second sample record. -/
def recB : List Byte := [5, 6, 7, 8]

/-- Third sample record. -/
def recC : List Byte := [9, 10, 11, 12]

/-- Fourth sample record. -/
def recD : List Byte := [13, 14, 15, 16]

/-- The table `create(0, 100, 4)` makes on the AVR platform. -/
def tableEmpty : EDB := (EDB.create avr blank 0 100 4).2

/-- The table after appending `recA`, `recB`, `recC` to `tableEmpty`. -/
def tableABC : EDB :=
  (EDB.appendRec avr (EDB.appendRec avr (EDB.appendRec avr tableEmpty recA).2 recB).2 recC).2

/-- The table after `create(0, 23, 4)` and three appends on the AVR platform:
it has room for exactly three records and holds three. -/
def tableFull : EDB :=
  (EDB.appendRec avr (EDB.appendRec avr (EDB.appendRec avr
    (EDB.create avr blank 0 23 4).2 recA).2 recB).2 recC).2

/-- An open table on the AVR platform whose `table_size` (10) is smaller than
the header (11 bytes): `limit()` wraps to `2^32 - 1`, and the table holds that
many one-byte records. -/
def tableWrapped : EDB :=
  { store := zeroStore
    EDB_head_ptr := 0
    EDB_table_ptr := 11
    EDB_head := { flag := 0xDB, n_recs := 4294967295, rec_size := 1, table_size := 10 } }

namespace EDB

/-- The engine states reached from `create(base, ts, rs)` by calls that
returned: `appendRec`, `insertRec` with `1 ≤ recno ≤ count()` or with
`recno == 1` on an empty table, and `deleteRec` with `1 ≤ recno ≤ count()`. -/
inductive Reachable (P : Platform) (base ts rs : Nat) : EDB → Prop
  | init (t0 : EDB) : Reachable P base ts rs (create P t0 base ts rs).2
  | append {t : EDB} (r : List Byte) :
      Reachable P base ts rs t → Reachable P base ts rs (appendRec P t r).2
  | insert {t t' : EDB} (fuel recno : Nat) (r : List Byte) (s : EDB_Status) :
      Reachable P base ts rs t →
      ((1 ≤ recno ∧ recno ≤ count t) ∨ (count t = 0 ∧ recno = 1)) →
      insertRec P fuel t recno r = some (s, t') → Reachable P base ts rs t'
  | delete {t t' : EDB} (fuel recno : Nat) (s : EDB_Status) :
      Reachable P base ts rs t → 1 ≤ recno → recno ≤ count t →
      deleteRec P fuel t recno = some (s, t') → Reachable P base ts rs t'

/-- The cached header is the one on the store: the base address is `base`,
the flag is the sentinel, the values fit their C types, and the bytes read at
`base` are the representation of the cached header. -/
structure Persisted (P : Platform) (base : Nat) (t : EDB) : Prop where
  head_ptr_eq : t.EDB_head_ptr = base
  flag_eq : t.EDB_head.flag = P.EDB_FLAG
  in_range : HeaderInRange P t.EDB_head
  on_store : edbRead P t.store base (headLen P) = P.encodeHead t.EDB_head

end EDB

/-- The table after `insertRec(2, recD)` on `tableABC`. -/
def tableADBC : EDB :=
  match EDB.insertRec avr 3 tableABC 2 recD with
  | some res => res.2
  | none => blank

/-- The table after `deleteRec(1)` on `tableADBC`. -/
def tableDBC : EDB :=
  match EDB.deleteRec avr 4 tableADBC 1 with
  | some res => res.2
  | none => blank

/-- The table `create(50, 100, 12)` makes on the AVR platform: records are
wider than the 11-byte header. -/
def tableWide : EDB := (EDB.create avr blank 50 100 12).2

/-- A 12-byte record, for `tableWide`. -/
def recWide : List Byte := [21, 22, 23, 24, 25, 26, 27, 28, 29, 30, 31, 32]

namespace EDB

/-- The scenario table: `create(base, 100, 4)` followed by `appendRec` of the
records `A`, `B`, `C`. -/
def scenarioABC (P : Platform) (t0 : EDB) (base : Nat) (A B C : List Byte) : EDB :=
  (appendRec P (appendRec P (appendRec P (create P t0 base 100 4).2 A).2 B).2 C).2

end EDB

/-! ## Wrapping arithmetic -/

theorem ulongMod_pos (P : Platform) : 0 < P.ulongMod := by
  unfold Platform.ulongMod
  exact Nat.pow_pos (by decide)

theorem uadd_lt (P : Platform) (a b : Nat) : P.uadd a b < P.ulongMod :=
  Nat.mod_lt _ (ulongMod_pos P)

theorem uadd_eq (P : Platform) {a b : Nat} (h : a + b < P.ulongMod) : P.uadd a b = a + b :=
  Nat.mod_eq_of_lt h

theorem usub_eq (P : Platform) {a b : Nat} (hb : b ≤ a) (ha : a < P.ulongMod) :
    P.usub a b = a - b := by
  unfold Platform.usub
  have hb' : b % P.ulongMod = b := Nat.mod_eq_of_lt (by omega)
  rw [hb']
  have h1 : a + P.ulongMod - b = (a - b) + P.ulongMod := by omega
  rw [h1, Nat.add_mod_right]
  exact Nat.mod_eq_of_lt (by omega)

theorem umul_eq (P : Platform) {a b : Nat} (h : a * b < P.ulongMod) : P.umul a b = a * b :=
  Nat.mod_eq_of_lt h

/-- Stepping `d` addresses forward, with `0 < d < 2 ^ ulongBits`, never comes
back to the starting address. -/
theorem add_mod_ne (M a d : Nat) (ha : a < M) (hd : 0 < d) (hdM : d < M) :
    (a + d) % M ≠ a := by
  by_cases h : a + d < M
  · rw [Nat.mod_eq_of_lt h]; omega
  · have h1 : (a + d) % M = a + d - M := by
      rw [Nat.mod_eq_sub_mod (by omega)]
      exact Nat.mod_eq_of_lt (by omega)
    rw [h1]; omega

theorem succ_add_mod (M a j : Nat) : ((a + 1) % M + j) % M = (a + (j + 1)) % M := by
  rw [Nat.add_mod, Nat.mod_mod, ← Nat.add_mod]
  congr 1
  omega

/-! ## The byte-level primitives -/

namespace EDB

theorem edbRead_length (P : Platform) (st : Store) (n : Nat) :
    ∀ ee, (edbRead P st ee n).length = n := by
  induction n with
  | zero => intro ee; rfl
  | succ n ih => intro ee; simp [edbRead, ih]

/-- Bytes read are the bytes at the consecutive (wrapping) addresses. -/
theorem edbRead_eq_map (P : Platform) (st : Store) (n : Nat) :
    ∀ ee, ee < P.ulongMod →
      edbRead P st ee n = (List.range n).map (fun j => st ((ee + j) % P.ulongMod)) := by
  induction n with
  | zero => intro ee _; rfl
  | succ n ih =>
    intro ee hee
    rw [edbRead, ih _ (uadd_lt P ee 1), List.range_succ_eq_map, List.map_cons, List.map_map]
    congr 1
    · simp [_read_byte, Nat.mod_eq_of_lt hee]
    · apply List.map_congr_left
      intro j _
      simp only [Function.comp, Platform.uadd]
      rw [succ_add_mod]

/-- A write leaves every address it does not step on untouched. -/
theorem edbWrite_of_ne (P : Platform) (x : Nat) (n : Nat) :
    ∀ (st : Store) (ee : Nat) (p : List Byte), ee < P.ulongMod →
      (∀ j, j < n → (ee + j) % P.ulongMod ≠ x) → edbWrite P st ee p n x = st x := by
  induction n with
  | zero => intro st ee p _ _; rfl
  | succ n ih =>
    intro st ee p hee hx
    rw [edbWrite, ih _ _ _ (uadd_lt P ee 1)]
    · have h0 := hx 0 (by omega)
      rw [Nat.add_zero, Nat.mod_eq_of_lt hee] at h0
      simp [_write_byte, Ne.symm h0]
    · intro j hj
      have := hx (j + 1) (by omega)
      simp only [Platform.uadd]
      rw [succ_add_mod]
      exact this

/-- Reading back what was just written, for a block of at most
`2 ^ ulongBits` bytes (addresses may wrap). -/
theorem edbRead_edbWrite (P : Platform) (n : Nat) :
    ∀ (st : Store) (ee : Nat) (p : List Byte), ee < P.ulongMod → n ≤ P.ulongMod →
      p.length = n → edbRead P (edbWrite P st ee p n) ee n = p := by
  induction n with
  | zero =>
    intro st ee p _ _ hp
    simp [edbRead, List.length_eq_zero.mp hp]
  | succ n ih =>
    intro st ee p hee hn hp
    obtain ⟨b, q, rfl⟩ : ∃ b q, p = b :: q := by
      cases p with
      | nil => simp at hp
      | cons b q => exact ⟨b, q, rfl⟩
    simp only [List.length_cons, Nat.add_right_cancel_iff] at hp
    rw [edbWrite, edbRead]
    simp only [List.headD_cons, List.tail_cons]
    rw [ih _ _ _ (uadd_lt P ee 1) (by omega) hp]
    congr 1
    simp only [_read_byte]
    rw [edbWrite_of_ne P ee n _ _ _ (uadd_lt P ee 1)]
    · simp [_write_byte]
    · intro j hj
      simp only [Platform.uadd]
      rw [succ_add_mod]
      exact add_mod_ne _ _ _ hee (by omega) (by omega)

/-- Reads depend only on the bytes at the addresses read. -/
theorem edbRead_congr (P : Platform) (st st' : Store) (n ee : Nat) (hee : ee < P.ulongMod)
    (h : ∀ j, j < n → st ((ee + j) % P.ulongMod) = st' ((ee + j) % P.ulongMod)) :
    edbRead P st ee n = edbRead P st' ee n := by
  rw [edbRead_eq_map P st n ee hee, edbRead_eq_map P st' n ee hee]
  apply List.map_congr_left
  intro j hj
  exact h j (List.mem_range.mp hj)

end EDB

/-! ## Blocks that do not wrap around the address space -/

namespace EDB

/-- A write of `n` bytes at `ee` changes nothing outside `[ee, ee + n)`. -/
theorem edbWrite_outside (P : Platform) (st : Store) (ee n : Nat) (p : List Byte) (x : Nat)
    (hfit : ee + n ≤ P.ulongMod) (hx : x < ee ∨ ee + n ≤ x) :
    edbWrite P st ee p n x = st x := by
  cases n with
  | zero => rfl
  | succ n =>
    apply edbWrite_of_ne P x _ st ee p (by omega)
    intro j hj
    rw [Nat.mod_eq_of_lt (by omega)]
    omega

/-- Two stores that agree on `[ee, ee + n)` give the same read there. -/
theorem edbRead_congr_block (P : Platform) (st st' : Store) (ee n : Nat)
    (hfit : ee + n ≤ P.ulongMod) (h : ∀ x, ee ≤ x → x < ee + n → st x = st' x) :
    edbRead P st ee n = edbRead P st' ee n := by
  cases n with
  | zero => rfl
  | succ n =>
    apply edbRead_congr P st st' _ ee (by omega)
    intro j hj
    rw [Nat.mod_eq_of_lt (by omega)]
    exact h _ (by omega) (by omega)

/-- A read is not affected by a write to a disjoint block. -/
theorem edbRead_edbWrite_disjoint (P : Platform) (st : Store) (ee n ee' n' : Nat)
    (p : List Byte) (hfit : ee + n ≤ P.ulongMod) (hfit' : ee' + n' ≤ P.ulongMod)
    (hdis : ee + n ≤ ee' ∨ ee' + n' ≤ ee) :
    edbRead P (edbWrite P st ee' p n') ee n = edbRead P st ee n := by
  apply edbRead_congr_block P _ _ ee n hfit
  intro x hx1 hx2
  exact edbWrite_outside P st ee' n' p x hfit' (by omega)

/-- Reading back a block just written, without wrap-around. -/
theorem edbRead_edbWrite_block (P : Platform) (st : Store) (ee n : Nat) (p : List Byte)
    (hfit : ee + n ≤ P.ulongMod) (hp : p.length = n) :
    edbRead P (edbWrite P st ee p n) ee n = p := by
  cases n with
  | zero => simp [edbRead, List.length_eq_zero.mp hp]
  | succ n => exact edbRead_edbWrite P _ st ee p (by omega) (by omega) hp

theorem pred_mul_add (i rs : Nat) (hi : 1 ≤ i) : (i - 1) * rs + rs = i * rs := by
  obtain ⟨j, rfl⟩ : ∃ j, i = j + 1 := ⟨i - 1, by omega⟩
  simp [Nat.succ_mul]

theorem Layout.recAddr_eq {P : Platform} {t : EDB} {L : Nat} (hL : Layout P t L) {i : Nat}
    (h1 : 1 ≤ i) (h2 : i ≤ L) :
    recAddr P t i = t.EDB_table_ptr + (i - 1) * t.EDB_head.rec_size := by
  have hfit := hL.slots_fit
  have hlt := hL.slots_lt
  have hrs := hL.rec_size_pos
  have hmono : i * t.EDB_head.rec_size ≤ L * t.EDB_head.rec_size := Nat.mul_le_mul_right _ h2
  have hstep := pred_mul_add i t.EDB_head.rec_size h1
  unfold recAddr
  rw [usub_eq P h1 (by omega), umul_eq P (by omega), uadd_eq P (by omega)]

/-- Slot `i` ends where slot `i + 1` starts, inside the first `L` slots. -/
theorem Layout.slot_fit {P : Platform} {t : EDB} {L : Nat} (hL : Layout P t L) {i : Nat}
    (h1 : 1 ≤ i) (h2 : i ≤ L) :
    t.EDB_table_ptr + (i - 1) * t.EDB_head.rec_size + t.EDB_head.rec_size
        = t.EDB_table_ptr + i * t.EDB_head.rec_size ∧
      t.EDB_table_ptr + i * t.EDB_head.rec_size ≤ P.ulongMod := by
  have hfit := hL.slots_fit
  have hmono : i * t.EDB_head.rec_size ≤ L * t.EDB_head.rec_size := Nat.mul_le_mul_right _ h2
  have hstep := pred_mul_add i t.EDB_head.rec_size h1
  omega

/-- The layout does not depend on the store or on the record count. -/
theorem Layout.of_eq {P : Platform} {t t' : EDB} {L : Nat} (hL : Layout P t L)
    (h1 : t'.EDB_head_ptr = t.EDB_head_ptr) (h2 : t'.EDB_table_ptr = t.EDB_table_ptr)
    (h3 : t'.EDB_head.rec_size = t.EDB_head.rec_size) : Layout P t' L :=
  ⟨by rw [h3]; exact hL.rec_size_pos, by rw [h1, h2]; exact hL.table_ptr_eq,
    by rw [h2, h3]; exact hL.slots_fit, hL.slots_lt⟩

theorem readRec_in_range (P : Platform) (t : EDB) (L i : Nat) (buf : List Byte)
    (hL : Layout P t L) (h1 : 1 ≤ i) (h2 : i ≤ t.EDB_head.n_recs) (h3 : i ≤ L) :
    readRec P t i buf =
      (EDB_Status.EDB_OK, slotBytes P t.store t.EDB_table_ptr t.EDB_head.rec_size i, t) := by
  unfold readRec slotBytes
  rw [if_neg (by omega), hL.recAddr_eq h1 h3]

theorem readRec_out_of_range (P : Platform) (t : EDB) (i : Nat) (buf : List Byte)
    (h : i < 1 ∨ i > t.EDB_head.n_recs) :
    readRec P t i buf = (EDB_Status.EDB_OUT_OF_RANGE, buf, t) := by
  unfold readRec
  rw [if_pos h]

/-- Writing slot `j` and reading slot `j` back. -/
theorem slotBytes_write_same (P : Platform) (t : EDB) (L j : Nat) (r : List Byte)
    (hL : Layout P t L) (h1 : 1 ≤ j) (h2 : j ≤ L) (hr : r.length = t.EDB_head.rec_size) :
    slotBytes P (writeRec P t j r).2.store t.EDB_table_ptr t.EDB_head.rec_size j = r := by
  have hf := hL.slot_fit h1 h2
  simp only [writeRec, slotBytes]
  rw [hL.recAddr_eq h1 h2]
  exact edbRead_edbWrite_block P _ _ _ r (by omega) hr

/-- Writing slot `j` changes no byte outside slot `j`. -/
theorem writeRec_outside (P : Platform) (t : EDB) (L j : Nat) (r : List Byte) (x : Nat)
    (hL : Layout P t L) (h1 : 1 ≤ j) (h2 : j ≤ L)
    (hx : x < t.EDB_table_ptr + (j - 1) * t.EDB_head.rec_size ∨
      t.EDB_table_ptr + j * t.EDB_head.rec_size ≤ x) :
    (writeRec P t j r).2.store x = t.store x := by
  have hf := hL.slot_fit h1 h2
  simp only [writeRec]
  rw [hL.recAddr_eq h1 h2]
  exact edbWrite_outside P _ _ _ r x (by omega) (by omega)

/-- Two stores that agree on the bytes of slot `i` hold the same record there. -/
theorem slotBytes_congr (P : Platform) (t : EDB) (L i : Nat) (st st' : Store)
    (hL : Layout P t L) (h1 : 1 ≤ i) (h2 : i ≤ L)
    (h : ∀ x, t.EDB_table_ptr + (i - 1) * t.EDB_head.rec_size ≤ x →
      x < t.EDB_table_ptr + i * t.EDB_head.rec_size → st x = st' x) :
    slotBytes P st t.EDB_table_ptr t.EDB_head.rec_size i
      = slotBytes P st' t.EDB_table_ptr t.EDB_head.rec_size i := by
  have hf := hL.slot_fit h1 h2
  unfold slotBytes
  apply edbRead_congr_block P st st' _ _ (by omega)
  intro x hx1 hx2
  exact h x hx1 (by omega)

theorem slotBytes_length (P : Platform) (st : Store) (tp rs i : Nat) :
    (slotBytes P st tp rs i).length = rs :=
  edbRead_length P st rs _

end EDB

/-! ## The shifting loops -/

namespace EDB

/-- The loop of `insertRec`, run from `i` down to `k ≥ 1`: it terminates, moves
the records of slots `k..i` one slot up and changes nothing outside slots
`k+1..i+1`. -/
theorem insertLoop_spec (P : Platform) (L k : Nat) (hk : 1 ≤ k) :
    ∀ (fuel : Nat) (t : EDB) (i : Nat) (buf : List Byte),
      Layout P t L → k ≤ i + 1 → i ≤ t.EDB_head.n_recs → i + 1 ≤ L → i + 1 - k < fuel →
      ∃ st' : Store,
        insertLoop P k fuel t i buf = some { t with store := st' } ∧
        (∀ j, k + 1 ≤ j → j ≤ i + 1 →
          slotBytes P st' t.EDB_table_ptr t.EDB_head.rec_size j
            = slotBytes P t.store t.EDB_table_ptr t.EDB_head.rec_size (j - 1)) ∧
        (∀ x, x < t.EDB_table_ptr + k * t.EDB_head.rec_size ∨
            t.EDB_table_ptr + (i + 1) * t.EDB_head.rec_size ≤ x → st' x = t.store x) := by
  intro fuel
  induction fuel with
  | zero => intro t i buf _ _ _ _ hf; omega
  | succ fuel ih =>
    intro t i buf hL hki hin hiL hf
    by_cases hik : i ≥ k
    · have hi1 : 1 ≤ i := by omega
      have hM := hL.slots_lt
      rw [insertLoop, if_pos hik]
      simp only [readRec_in_range P t L i buf hL hi1 hin (by omega)]
      rw [uadd_eq P (by omega), usub_eq P hi1 (by omega)]
      generalize hrec : slotBytes P t.store t.EDB_table_ptr t.EDB_head.rec_size i = rec
      have hlen : rec.length = t.EDB_head.rec_size := by
        rw [← hrec]; exact slotBytes_length P _ _ _ _
      generalize ht1 : (writeRec P t (i + 1) rec).2 = t1
      have e1 : t1.EDB_head_ptr = t.EDB_head_ptr := by rw [← ht1]; rfl
      have e2 : t1.EDB_table_ptr = t.EDB_table_ptr := by rw [← ht1]; rfl
      have e3 : t1.EDB_head = t.EDB_head := by rw [← ht1]; rfl
      have hL1 : Layout P t1 L := hL.of_eq e1 e2 (by rw [e3])
      obtain ⟨st', hrun, hmove, hframe⟩ :=
        ih t1 (i - 1) rec hL1 (by omega) (by rw [e3]; omega) (by omega) (by omega)
      rw [e2, e3] at hmove hframe
      have hsame : slotBytes P t1.store t.EDB_table_ptr t.EDB_head.rec_size (i + 1) = rec := by
        rw [← ht1]; exact slotBytes_write_same P t L (i + 1) rec hL (by omega) hiL hlen
      have hout : ∀ x, x < t.EDB_table_ptr + (i + 1 - 1) * t.EDB_head.rec_size ∨
          t.EDB_table_ptr + (i + 1) * t.EDB_head.rec_size ≤ x → t1.store x = t.store x := by
        intro x hx
        rw [← ht1]; exact writeRec_outside P t L (i + 1) rec x hL (by omega) hiL hx
      have hi_eq : i - 1 + 1 = i := by omega
      rw [hi_eq] at hmove hframe
      rw [Nat.add_sub_cancel] at hout
      have hstep : (i + 1) * t.EDB_head.rec_size = i * t.EDB_head.rec_size + t.EDB_head.rec_size :=
        Nat.succ_mul _ _
      have hmono : k * t.EDB_head.rec_size ≤ i * t.EDB_head.rec_size :=
        Nat.mul_le_mul_right _ hik
      refine ⟨st', ?_, ?_, ?_⟩
      · rw [hrun]
        congr 1
        cases t1; cases t
        simp at e1 e2 e3 ⊢
        exact ⟨e1, e2, e3⟩
      · intro j hj1 hj2
        by_cases hji : j ≤ i
        · rw [hmove j hj1 hji]
          apply slotBytes_congr P t L (j - 1) _ _ hL (by omega) (by omega)
          intro x hx1 hx2
          apply hout
          left
          have hm : (j - 1) * t.EDB_head.rec_size ≤ i * t.EDB_head.rec_size :=
            Nat.mul_le_mul_right _ (by omega)
          omega
        · have hj : j = i + 1 := by omega
          subst hj
          rw [Nat.add_sub_cancel, hrec, ← hsame]
          apply slotBytes_congr P t L (i + 1) _ _ hL (by omega) hiL
          intro x hx1 hx2
          apply hframe
          right
          rw [Nat.add_sub_cancel] at hx1
          exact hx1
      · intro x hx
        rw [hframe x (by omega), hout x (by omega)]
    · refine ⟨t.store, ?_, ?_, ?_⟩
      · rw [insertLoop, if_neg hik]
      · intro j h1 h2; omega
      · intro x _; rfl

/-- The loop of `deleteRec`, run from `i ≥ 2` up to `n_recs`: it terminates,
moves the records of slots `i..n_recs` one slot down and changes nothing
outside slots `i-1..n_recs-1`. -/
theorem deleteLoop_spec (P : Platform) (L : Nat) :
    ∀ (fuel : Nat) (t : EDB) (i : Nat) (buf : List Byte),
      Layout P t L → 2 ≤ i → i ≤ t.EDB_head.n_recs + 1 → t.EDB_head.n_recs ≤ L →
      t.EDB_head.n_recs + 1 - i < fuel →
      ∃ st' : Store,
        deleteLoop P fuel t i buf = some { t with store := st' } ∧
        (∀ j, i - 1 ≤ j → j + 1 ≤ t.EDB_head.n_recs →
          slotBytes P st' t.EDB_table_ptr t.EDB_head.rec_size j
            = slotBytes P t.store t.EDB_table_ptr t.EDB_head.rec_size (j + 1)) ∧
        (∀ x, x < t.EDB_table_ptr + (i - 2) * t.EDB_head.rec_size ∨
            t.EDB_table_ptr + (t.EDB_head.n_recs - 1) * t.EDB_head.rec_size ≤ x →
          st' x = t.store x) := by
  intro fuel
  induction fuel with
  | zero => intro t i buf _ _ _ _ hf; omega
  | succ fuel ih =>
    intro t i buf hL hi2 hin hnL hf
    by_cases hik : i ≤ t.EDB_head.n_recs
    · have hM := hL.slots_lt
      rw [deleteLoop, if_pos hik]
      simp only [readRec_in_range P t L i buf hL (by omega) hik (by omega)]
      rw [uadd_eq P (by omega), usub_eq P (by omega) (by omega)]
      generalize hrec : slotBytes P t.store t.EDB_table_ptr t.EDB_head.rec_size i = rec
      have hlen : rec.length = t.EDB_head.rec_size := by
        rw [← hrec]; exact slotBytes_length P _ _ _ _
      generalize ht1 : (writeRec P t (i - 1) rec).2 = t1
      have e1 : t1.EDB_head_ptr = t.EDB_head_ptr := by rw [← ht1]; rfl
      have e2 : t1.EDB_table_ptr = t.EDB_table_ptr := by rw [← ht1]; rfl
      have e3 : t1.EDB_head = t.EDB_head := by rw [← ht1]; rfl
      have hL1 : Layout P t1 L := hL.of_eq e1 e2 (by rw [e3])
      obtain ⟨st', hrun, hmove, hframe⟩ :=
        ih t1 (i + 1) rec hL1 (by omega) (by rw [e3]; omega) (by rw [e3]; omega)
          (by rw [e3]; omega)
      rw [e2, e3] at hmove hframe
      have hsame : slotBytes P t1.store t.EDB_table_ptr t.EDB_head.rec_size (i - 1) = rec := by
        rw [← ht1]
        exact slotBytes_write_same P t L (i - 1) rec hL (by omega) (by omega) hlen
      have hout : ∀ x, x < t.EDB_table_ptr + (i - 1 - 1) * t.EDB_head.rec_size ∨
          t.EDB_table_ptr + (i - 1) * t.EDB_head.rec_size ≤ x → t1.store x = t.store x := by
        intro x hx
        rw [← ht1]
        exact writeRec_outside P t L (i - 1) rec x hL (by omega) (by omega) hx
      have hi_eq : i + 1 - 1 = i := by omega
      have hi_eq2 : i + 1 - 2 = i - 1 := by omega
      have hi_eq3 : i - 1 - 1 = i - 2 := by omega
      rw [hi_eq] at hmove
      rw [hi_eq2] at hframe
      rw [hi_eq3] at hout
      have hstep := pred_mul_add (i - 1) t.EDB_head.rec_size (by omega)
      rw [hi_eq3] at hstep
      have hmono : (i - 1) * t.EDB_head.rec_size
          ≤ (t.EDB_head.n_recs - 1) * t.EDB_head.rec_size :=
        Nat.mul_le_mul_right _ (by omega)
      refine ⟨st', ?_, ?_, ?_⟩
      · rw [hrun]
        congr 1
        cases t1; cases t
        simp at e1 e2 e3 ⊢
        exact ⟨e1, e2, e3⟩
      · intro j hj1 hj2
        by_cases hji : i ≤ j
        · rw [hmove j hji hj2]
          apply slotBytes_congr P t L (j + 1) _ _ hL (by omega) (by omega)
          intro x hx1 hx2
          apply hout
          right
          rw [Nat.add_sub_cancel] at hx1
          have hm : (i - 1) * t.EDB_head.rec_size ≤ j * t.EDB_head.rec_size :=
            Nat.mul_le_mul_right _ (by omega)
          omega
        · have hj : j = i - 1 := by omega
          subst hj
          have hi' : i - 1 + 1 = i := by omega
          rw [hi', hrec, ← hsame]
          apply slotBytes_congr P t L (i - 1) _ _ hL (by omega) (by omega)
          intro x hx1 hx2
          apply hframe
          left
          exact hx2
      · intro x hx
        rw [hframe x (by omega), hout x (by omega)]
    · refine ⟨t.store, ?_, ?_, ?_⟩
      · rw [deleteLoop, if_neg hik]
      · intro j h1 h2; omega
      · intro x _; rfl

end EDB

/-! ## The header on the store -/

namespace EDB

theorem headLen_eq (P : Platform) (hP : P.Valid) : headLen P = P.headerSize := by
  have h1 := hP.header_lt
  have h2 : P.uintMod ≤ P.ulongMod := Nat.pow_le_pow_right (by decide) hP.uint_le_ulong
  have e1 : P.headerSize % P.ulongMod = P.headerSize := Nat.mod_eq_of_lt (by omega)
  unfold headLen
  rw [e1, Nat.mod_eq_of_lt h1]

theorem headerSize_lt (P : Platform) (hP : P.Valid) : P.headerSize < P.ulongMod := by
  have h1 := hP.header_lt
  have h2 : P.uintMod ≤ P.ulongMod := Nat.pow_le_pow_right (by decide) hP.uint_le_ulong
  omega

/-- After `writeHead` the store holds the representation of the cached header
at the base address. -/
theorem writeHead_persist (P : Platform) (hP : P.Valid) (t : EDB)
    (hp : t.EDB_head_ptr < P.ulongMod) :
    edbRead P (writeHead P t).store t.EDB_head_ptr (headLen P) = P.encodeHead t.EDB_head := by
  have h := headerSize_lt P hP
  simp only [writeHead]
  apply edbRead_edbWrite P _ _ _ _ hp
  · rw [headLen_eq P hP]; omega
  · rw [headLen_eq P hP]; exact hP.encode_length _

/-- `writeHead` changes no byte outside `[base, base + sizeof(EDB_Header))`. -/
theorem writeHead_outside (P : Platform) (hP : P.Valid) (t : EDB) (x : Nat)
    (hfit : t.EDB_head_ptr + P.headerSize ≤ P.ulongMod)
    (hx : x < t.EDB_head_ptr ∨ t.EDB_head_ptr + P.headerSize ≤ x) :
    (writeHead P t).store x = t.store x := by
  simp only [writeHead]
  rw [headLen_eq P hP]
  exact edbWrite_outside P _ _ _ _ x hfit hx

/-- `writeHead` leaves the record slots alone. -/
theorem slotBytes_writeHead (P : Platform) (hP : P.Valid) (t : EDB) (L i : Nat)
    (hL : Layout P t L) (h1 : 1 ≤ i) (h2 : i ≤ L) :
    slotBytes P (writeHead P t).store t.EDB_table_ptr t.EDB_head.rec_size i
      = slotBytes P t.store t.EDB_table_ptr t.EDB_head.rec_size i := by
  have hf := hL.slot_fit h1 h2
  have htp := hL.table_ptr_eq
  apply slotBytes_congr P t L i _ _ hL h1 h2
  intro x hx1 hx2
  exact writeHead_outside P hP t x (by omega) (by omega)

theorem limit_eq (P : Platform) (t : EDB)
    (h1 : P.headerSize ≤ t.EDB_head.table_size) (h2 : t.EDB_head.table_size < P.ulongMod) :
    limit P t = (t.EDB_head.table_size - P.headerSize) / t.EDB_head.rec_size := by
  unfold limit
  rw [usub_eq P h1 h2]

/-- The slots of a well-formed table with room for at least one record are
laid out without wrap-around. -/
theorem WellFormed.layout {P : Platform} {t : EDB} (hP : P.Valid) (hwf : WellFormed P t)
    (h1 : 1 ≤ limit P t) : Layout P t (limit P t) := by
  have hts := hwf.isOpen.in_range.table_size_lt
  have hhs := hP.header_pos
  have hno := hwf.no_overflow
  have hle := hwf.header_le
  have hrs := hwf.rec_size_pos
  have hlim := limit_eq P t hle hts
  have hmul : limit P t * t.EDB_head.rec_size ≤ t.EDB_head.table_size - P.headerSize := by
    rw [hlim]; exact Nat.div_mul_le_self _ _
  have hge : limit P t ≤ limit P t * t.EDB_head.rec_size := Nat.le_mul_of_pos_right _ hrs
  have htp : t.EDB_table_ptr = t.EDB_head_ptr + P.headerSize := by
    rw [hwf.isOpen.table_ptr_eq, uadd_eq P (by omega)]; omega
  exact ⟨hrs, htp, by rw [htp]; omega, by omega⟩

/-- In a well-formed table `count() + 1` does not wrap. -/
theorem WellFormed.count_succ_lt {P : Platform} {t : EDB} (hP : P.Valid) (hwf : WellFormed P t) :
    count t + 1 < P.ulongMod := by
  have hts := hwf.isOpen.in_range.table_size_lt
  have hhs := hP.header_pos
  have hle := hwf.header_le
  have hcap := hwf.capacity
  have hlim := limit_eq P t hle hts
  have h : limit P t ≤ t.EDB_head.table_size - P.headerSize := by
    rw [hlim]; exact Nat.div_le_self _ _
  omega

end EDB

/-! ## The record operations on well-formed tables -/

namespace EDB

/-- What a shifting insert at `k` (with `1 ≤ k ≤ count()`, table not full) does:
it returns `EDB_OK` given enough fuel, only the store and `n_recs` change,
slot `k` holds the new record, the slots below `k` keep their record, the
records of slots `k..count()` move one slot up, no byte outside the header and
slots `k..count()+1` changes, and the header on the store is the new one. -/
theorem insertRec_spec (P : Platform) (hP : P.Valid) (t : EDB) (hwf : WellFormed P t)
    (k : Nat) (r : List Byte) (hfull : count t < limit P t) (hk1 : 1 ≤ k) (hkn : k ≤ count t)
    (hr : r.length = t.EDB_head.rec_size) (fuel : Nat) (hfuel : count t + 1 - k < fuel) :
    ∃ t' : EDB,
      insertRec P fuel t k r = some (EDB_Status.EDB_OK, t') ∧
      t'.EDB_head_ptr = t.EDB_head_ptr ∧
      t'.EDB_table_ptr = t.EDB_table_ptr ∧
      t'.EDB_head = { t.EDB_head with n_recs := count t + 1 } ∧
      slotBytes P t'.store t.EDB_table_ptr t.EDB_head.rec_size k = r ∧
      (∀ i, 1 ≤ i → i < k →
        slotBytes P t'.store t.EDB_table_ptr t.EDB_head.rec_size i
          = slotBytes P t.store t.EDB_table_ptr t.EDB_head.rec_size i) ∧
      (∀ i, k ≤ i → i ≤ count t →
        slotBytes P t'.store t.EDB_table_ptr t.EDB_head.rec_size (i + 1)
          = slotBytes P t.store t.EDB_table_ptr t.EDB_head.rec_size i) ∧
      (∀ x, (x < t.EDB_head_ptr ∨
          (t.EDB_table_ptr ≤ x ∧ x < t.EDB_table_ptr + (k - 1) * t.EDB_head.rec_size) ∨
          t.EDB_table_ptr + (count t + 1) * t.EDB_head.rec_size ≤ x) →
        t'.store x = t.store x) ∧
      edbRead P t'.store t.EDB_head_ptr (headLen P)
        = P.encodeHead { t.EDB_head with n_recs := count t + 1 } := by
  have hlim1 : 1 ≤ limit P t := by omega
  have hL := hwf.layout hP hlim1
  have hcnt := hwf.count_succ_lt hP
  simp only [count] at hfull hkn hfuel hcnt ⊢
  obtain ⟨st1, hrun, hmove, hframe⟩ :=
    insertLoop_spec P (limit P t) k hk1 fuel t t.EDB_head.n_recs
      (P.malloc t.EDB_head.rec_size) hL (by omega) (Nat.le_refl _) (by omega) (by omega)
  unfold insertRec count
  rw [if_neg (by omega), if_neg (by omega), if_neg (by omega), hrun]
  simp only
  generalize ht1 : ({ t with store := st1 } : EDB) = t1
  have hL1 : Layout P t1 (limit P t) := hL.of_eq (by rw [← ht1]) (by rw [← ht1]) (by rw [← ht1])
  have a1 : t1.EDB_head_ptr = t.EDB_head_ptr := by rw [← ht1]
  have a2 : t1.EDB_table_ptr = t.EDB_table_ptr := by rw [← ht1]
  have a3 : t1.EDB_head = t.EDB_head := by rw [← ht1]
  have a4 : t1.store = st1 := by rw [← ht1]
  have hsame := slotBytes_write_same P t1 (limit P t) k r hL1 hk1 (by omega) (by rw [a3]; exact hr)
  have hout := fun x => writeRec_outside P t1 (limit P t) k r x hL1 hk1 (by omega)
  generalize ht2 : (writeRec P t1 k r).2 = t2 at hsame hout
  have b1 : t2.EDB_head_ptr = t.EDB_head_ptr := by rw [← ht2, ← a1]; rfl
  have b2 : t2.EDB_table_ptr = t.EDB_table_ptr := by rw [← ht2, ← a2]; rfl
  have b3 : t2.EDB_head = t.EDB_head := by rw [← ht2, ← a3]; rfl
  rw [a2, a3] at hsame hout
  simp only [a4] at hout
  rw [b3, uadd_eq P (by omega)]
  generalize ht3 : ({ t2 with EDB_head := { t.EDB_head with n_recs := t.EDB_head.n_recs + 1 } }
    : EDB) = t3
  have c1 : t3.EDB_head_ptr = t.EDB_head_ptr := by rw [← ht3]; exact b1
  have c2 : t3.EDB_table_ptr = t.EDB_table_ptr := by rw [← ht3]; exact b2
  have c3 : t3.EDB_head = { t.EDB_head with n_recs := t.EDB_head.n_recs + 1 } := by rw [← ht3]
  have c4 : t3.store = t2.store := by rw [← ht3]
  have hL3 : Layout P t3 (limit P t) := hL.of_eq c1 c2 (by rw [c3])
  have hpersist := writeHead_persist P hP t3 (by rw [c1]; exact hwf.isOpen.head_ptr_lt)
  have hslot := fun i => slotBytes_writeHead P hP t3 (limit P t) i hL3
  have hhead := fun x => writeHead_outside P hP t3 x
    (by have := hL.table_ptr_eq; have := hL.slots_fit; rw [c1]; omega)
  rw [c1, c3] at hpersist
  rw [c2, c3, c4] at hslot
  rw [c1, c4] at hhead
  have htp := hL.table_ptr_eq
  have hstep := pred_mul_add k t.EDB_head.rec_size hk1
  refine ⟨writeHead P t3, rfl, c1, c2, c3, ?_, ?_, ?_, ?_, hpersist⟩
  · rw [hslot k hk1 (by omega)]
    exact hsame
  · intro i hi1 hik
    rw [hslot i hi1 (by omega)]
    apply slotBytes_congr P t (limit P t) i _ _ hL hi1 (by omega)
    intro x hx1 hx2
    have hm : i * t.EDB_head.rec_size ≤ (k - 1) * t.EDB_head.rec_size :=
      Nat.mul_le_mul_right _ (by omega)
    rw [hout x (by omega), hframe x (by omega)]
  · intro i hki hin
    have hm1 := hmove (i + 1) (by omega) (by omega)
    rw [Nat.add_sub_cancel] at hm1
    rw [hslot (i + 1) (by omega) (by omega), ← hm1]
    apply slotBytes_congr P t (limit P t) (i + 1) _ _ hL (by omega) (by omega)
    intro x hx1 hx2
    rw [Nat.add_sub_cancel] at hx1
    have hm : k * t.EDB_head.rec_size ≤ i * t.EDB_head.rec_size :=
      Nat.mul_le_mul_right _ hki
    exact hout x (by omega)
  · intro x hx
    have hm : k * t.EDB_head.rec_size ≤ (t.EDB_head.n_recs + 1) * t.EDB_head.rec_size :=
      Nat.mul_le_mul_right _ (by omega)
    rw [hhead x (by omega), hout x (by omega), hframe x (by omega)]

end EDB

/-! ## The AVR platform -/

theorem avr_decode_encode (h : EDB_Header) (hr : HeaderInRange avr h) :
    avrDecodeHead (avrEncodeHead h) = h := by
  obtain ⟨h1, h2, h3, h4⟩ := hr
  simp only [avr, Platform.ulongMod, Platform.uintMod] at h1 h2 h3 h4
  cases h with
  | mk f n rs ts =>
    simp only at h1 h2 h3 h4
    simp only [avrDecodeHead, avrEncodeHead, leBytes, List.cons_append, List.nil_append,
      List.take_succ_cons, List.take_zero, List.drop_succ_cons, List.drop_zero, leNat, byteOf]
    congr 1 <;> omega

theorem avr_valid : avr.Valid where
  uint_le_ulong := by decide
  header_pos := by decide
  header_lt := by decide
  flag_lt := by decide
  encode_length := by intro h; rfl
  decode_encode := avr_decode_encode

theorem tableEmpty_wf : EDB.WellFormed avr tableEmpty :=
  ⟨⟨by decide, by decide, by decide, ⟨by decide, by decide, by decide, by decide⟩⟩,
    by decide, by decide, by decide, by decide⟩

theorem tableABC_wf : EDB.WellFormed avr tableABC :=
  ⟨⟨by decide, by decide, by decide, ⟨by decide, by decide, by decide, by decide⟩⟩,
    by decide, by decide, by decide, by decide⟩

/-! ## Insert -/

namespace EDB

theorem readResult_in_range (P : Platform) (t : EDB) (L i : Nat) (buf : List Byte)
    (hL : Layout P t L) (h1 : 1 ≤ i) (h2 : i ≤ t.EDB_head.n_recs) (h3 : i ≤ L) :
    readResult P t i buf =
      (EDB_Status.EDB_OK, slotBytes P t.store t.EDB_table_ptr t.EDB_head.rec_size i) := by
  unfold readResult
  rw [readRec_in_range P t L i buf hL h1 h2 h3]

theorem readResult_out_of_range (P : Platform) (t : EDB) (i : Nat) (buf : List Byte)
    (h : i < 1 ∨ i > t.EDB_head.n_recs) :
    readResult P t i buf = (EDB_Status.EDB_OUT_OF_RANGE, buf) := by
  unfold readResult
  rw [readRec_out_of_range P t i buf h]

/-- C1: on a well-formed open table with `n` records that is not full, for
`1 ≤ k ≤ n` and a record `r` of `rec_size` bytes, `insertRec(k, r)` returns
`EDB_OK` (any fuel above `n + 1 - k` is enough for the loop), `count()` becomes
`n + 1`, `readRec(k)` then yields `r`, `readRec(i)` is as before for `i < k`,
and `readRec(i + 1)` yields what `readRec(i)` yielded before for `k ≤ i ≤ n`. -/
theorem insertRec_shifts_up (P : Platform) (hP : P.Valid) (t : EDB) (hwf : WellFormed P t)
    (k : Nat) (r : List Byte) (hfull : count t < limit P t) (hk1 : 1 ≤ k) (hkn : k ≤ count t)
    (hr : r.length = t.EDB_head.rec_size) (fuel : Nat) (hfuel : count t + 1 - k < fuel) :
    ∃ t' : EDB,
      insertRec P fuel t k r = some (EDB_Status.EDB_OK, t') ∧
      count t' = count t + 1 ∧
      (∀ buf, readResult P t' k buf = (EDB_Status.EDB_OK, r)) ∧
      (∀ i buf, i < k → readResult P t' i buf = readResult P t i buf) ∧
      (∀ i buf, k ≤ i → i ≤ count t →
        readResult P t i buf = (EDB_Status.EDB_OK, (readResult P t i buf).2) ∧
        readResult P t' (i + 1) buf = readResult P t i buf) := by
  obtain ⟨t', hrun, e1, e2, e3, hk, hlow, hup, -, -⟩ :=
    insertRec_spec P hP t hwf k r hfull hk1 hkn hr fuel hfuel
  have hL := hwf.layout hP (by omega)
  have hL' : Layout P t' (limit P t) := hL.of_eq e1 e2 (by rw [e3])
  have e4 : t'.EDB_head.rec_size = t.EDB_head.rec_size := by rw [e3]
  have e5 : t'.EDB_head.n_recs = t.EDB_head.n_recs + 1 := by rw [e3]; rfl
  simp only [count] at hfull hkn hup ⊢
  refine ⟨t', hrun, e5, ?_, ?_, ?_⟩
  · intro buf
    rw [readResult_in_range P t' (limit P t) k buf hL' hk1 (by omega) (by omega), e2, e4, hk]
  · intro i buf hik
    by_cases hi : 1 ≤ i
    · rw [readResult_in_range P t' (limit P t) i buf hL' hi (by omega) (by omega),
        readResult_in_range P t (limit P t) i buf hL hi (by omega) (by omega), e2, e4,
        hlow i hi hik]
    · rw [readResult_out_of_range P t' i buf (by omega),
        readResult_out_of_range P t i buf (by omega)]
  · intro i buf hki hin
    rw [readResult_in_range P t' (limit P t) (i + 1) buf hL' (by omega) (by omega) (by omega),
      readResult_in_range P t (limit P t) i buf hL (by omega) (by omega) (by omega), e2, e4,
      hup i hki hin]
    exact ⟨rfl, rfl⟩

end EDB

/-- C1 at a concrete input: inserting `recD` at position 2 of `tableABC`. -/
theorem insertRec_shifts_up_witness :
    ∃ t' : EDB,
      EDB.insertRec avr 3 tableABC 2 recD = some (EDB_Status.EDB_OK, t') ∧
      EDB.count t' = EDB.count tableABC + 1 ∧
      (∀ buf, EDB.readResult avr t' 2 buf = (EDB_Status.EDB_OK, recD)) ∧
      (∀ i buf, i < 2 → EDB.readResult avr t' i buf = EDB.readResult avr tableABC i buf) ∧
      (∀ i buf, 2 ≤ i → i ≤ EDB.count tableABC →
        EDB.readResult avr tableABC i buf
          = (EDB_Status.EDB_OK, (EDB.readResult avr tableABC i buf).2) ∧
        EDB.readResult avr t' (i + 1) buf = EDB.readResult avr tableABC i buf) :=
  EDB.insertRec_shifts_up avr avr_valid tableABC tableABC_wf 2 recD (by decide) (by decide)
    (by decide) (by decide) 3 (by decide)

/-! ## Delete -/

namespace EDB

/-- What a delete at `k` (with `1 ≤ k ≤ count()`) does: it returns `EDB_OK`
given enough fuel, only the store and `n_recs` change, the slots below `k`
keep their record, the records of slots `k+1..count()` move one slot down, no
byte outside the header and slots `k..count()-1` changes, and the header on
the store is the new one. -/
theorem deleteRec_spec (P : Platform) (hP : P.Valid) (t : EDB) (hwf : WellFormed P t)
    (k : Nat) (hk1 : 1 ≤ k) (hkn : k ≤ count t) (fuel : Nat) (hfuel : count t - k < fuel) :
    ∃ t' : EDB,
      deleteRec P fuel t k = some (EDB_Status.EDB_OK, t') ∧
      t'.EDB_head_ptr = t.EDB_head_ptr ∧
      t'.EDB_table_ptr = t.EDB_table_ptr ∧
      t'.EDB_head = { t.EDB_head with n_recs := count t - 1 } ∧
      (∀ i, 1 ≤ i → i < k →
        slotBytes P t'.store t.EDB_table_ptr t.EDB_head.rec_size i
          = slotBytes P t.store t.EDB_table_ptr t.EDB_head.rec_size i) ∧
      (∀ i, k ≤ i → i + 1 ≤ count t →
        slotBytes P t'.store t.EDB_table_ptr t.EDB_head.rec_size i
          = slotBytes P t.store t.EDB_table_ptr t.EDB_head.rec_size (i + 1)) ∧
      (∀ x, (x < t.EDB_head_ptr ∨
          (t.EDB_table_ptr ≤ x ∧ x < t.EDB_table_ptr + (k - 1) * t.EDB_head.rec_size) ∨
          t.EDB_table_ptr + (count t - 1) * t.EDB_head.rec_size ≤ x) →
        t'.store x = t.store x) ∧
      edbRead P t'.store t.EDB_head_ptr (headLen P)
        = P.encodeHead { t.EDB_head with n_recs := count t - 1 } := by
  have hcap := hwf.capacity
  have hlim1 : 1 ≤ limit P t := by omega
  have hL := hwf.layout hP hlim1
  have hcnt := hwf.count_succ_lt hP
  simp only [count] at hkn hfuel hcnt hcap ⊢
  have hk2 : k + 1 - 2 = k - 1 := by omega
  obtain ⟨st1, hrun, hmove, hframe⟩ :=
    deleteLoop_spec P (limit P t) fuel t (k + 1) (P.malloc t.EDB_head.rec_size) hL
      (by omega) (by omega) hcap (by omega)
  rw [Nat.add_sub_cancel] at hmove
  rw [hk2] at hframe
  unfold deleteRec
  rw [if_neg (by omega), uadd_eq P (by omega), hrun]
  simp only
  rw [usub_eq P (by omega) (by omega)]
  generalize ht3 : (
    { store := st1
      EDB_head_ptr := t.EDB_head_ptr
      EDB_table_ptr := t.EDB_table_ptr
      EDB_head := { t.EDB_head with n_recs := t.EDB_head.n_recs - 1 } } : EDB) = t3
  have c1 : t3.EDB_head_ptr = t.EDB_head_ptr := by rw [← ht3]
  have c2 : t3.EDB_table_ptr = t.EDB_table_ptr := by rw [← ht3]
  have c3 : t3.EDB_head = { t.EDB_head with n_recs := t.EDB_head.n_recs - 1 } := by rw [← ht3]
  have c4 : t3.store = st1 := by rw [← ht3]
  have hL3 : Layout P t3 (limit P t) := hL.of_eq c1 c2 (by rw [c3])
  have hpersist := writeHead_persist P hP t3 (by rw [c1]; exact hwf.isOpen.head_ptr_lt)
  have hslot := fun i => slotBytes_writeHead P hP t3 (limit P t) i hL3
  have hhead := fun x => writeHead_outside P hP t3 x
    (by have := hL.table_ptr_eq; have := hL.slots_fit; rw [c1]; omega)
  rw [c1, c3] at hpersist
  rw [c2, c3, c4] at hslot
  rw [c1, c4] at hhead
  have htp := hL.table_ptr_eq
  refine ⟨writeHead P t3, rfl, c1, c2, c3, ?_, ?_, ?_, hpersist⟩
  · intro i hi1 hik
    rw [hslot i hi1 (by omega)]
    apply slotBytes_congr P t (limit P t) i _ _ hL hi1 (by omega)
    intro x hx1 hx2
    have hm : i * t.EDB_head.rec_size ≤ (k - 1) * t.EDB_head.rec_size :=
      Nat.mul_le_mul_right _ (by omega)
    exact hframe x (by omega)
  · intro i hki hin
    rw [hslot i (by omega) (by omega)]
    exact hmove i hki hin
  · intro x hx
    rw [hhead x (by omega), hframe x (by omega)]

/-- C2: on a well-formed open table with `n` records and for `1 ≤ k ≤ n`,
`deleteRec(k)` returns `EDB_OK` (any fuel above `n - k` is enough for the
loop), `count()` becomes `n - 1`, `readRec(i)` is as before for `i < k`, and
`readRec(i)` yields what `readRec(i + 1)` yielded before for `k ≤ i ≤ n - 1`. -/
theorem deleteRec_shifts_down (P : Platform) (hP : P.Valid) (t : EDB) (hwf : WellFormed P t)
    (k : Nat) (hk1 : 1 ≤ k) (hkn : k ≤ count t) (fuel : Nat) (hfuel : count t - k < fuel) :
    ∃ t' : EDB,
      deleteRec P fuel t k = some (EDB_Status.EDB_OK, t') ∧
      count t' = count t - 1 ∧
      (∀ i buf, i < k → readResult P t' i buf = readResult P t i buf) ∧
      (∀ i buf, k ≤ i → i ≤ count t - 1 →
        readResult P t (i + 1) buf = (EDB_Status.EDB_OK, (readResult P t (i + 1) buf).2) ∧
        readResult P t' i buf = readResult P t (i + 1) buf) := by
  obtain ⟨t', hrun, e1, e2, e3, hlow, hup, -, -⟩ := deleteRec_spec P hP t hwf k hk1 hkn fuel hfuel
  have hcap := hwf.capacity
  have hL := hwf.layout hP (by omega)
  have hL' : Layout P t' (limit P t) := hL.of_eq e1 e2 (by rw [e3])
  have e4 : t'.EDB_head.rec_size = t.EDB_head.rec_size := by rw [e3]
  have e5 : t'.EDB_head.n_recs = t.EDB_head.n_recs - 1 := by rw [e3]; rfl
  simp only [count] at hkn hup hcap ⊢
  refine ⟨t', hrun, e5, ?_, ?_⟩
  · intro i buf hik
    by_cases hi : 1 ≤ i
    · rw [readResult_in_range P t' (limit P t) i buf hL' hi (by omega) (by omega),
        readResult_in_range P t (limit P t) i buf hL hi (by omega) (by omega), e2, e4,
        hlow i hi hik]
    · rw [readResult_out_of_range P t' i buf (by omega),
        readResult_out_of_range P t i buf (by omega)]
  · intro i buf hki hin
    rw [readResult_in_range P t' (limit P t) i buf hL' (by omega) (by omega) (by omega),
      readResult_in_range P t (limit P t) (i + 1) buf hL (by omega) (by omega) (by omega),
      e2, e4, hup i hki (by omega)]
    exact ⟨rfl, rfl⟩

end EDB

/-- C2 at a concrete input: deleting position 1 of `tableABC`. -/
theorem deleteRec_shifts_down_witness :
    ∃ t' : EDB,
      EDB.deleteRec avr 3 tableABC 1 = some (EDB_Status.EDB_OK, t') ∧
      EDB.count t' = EDB.count tableABC - 1 ∧
      (∀ i buf, i < 1 → EDB.readResult avr t' i buf = EDB.readResult avr tableABC i buf) ∧
      (∀ i buf, 1 ≤ i → i ≤ EDB.count tableABC - 1 →
        EDB.readResult avr tableABC (i + 1) buf
          = (EDB_Status.EDB_OK, (EDB.readResult avr tableABC (i + 1) buf).2) ∧
        EDB.readResult avr t' i buf = EDB.readResult avr tableABC (i + 1) buf) :=
  EDB.deleteRec_shifts_down avr avr_valid tableABC tableABC_wf 1 (by decide) (by decide) 3
    (by decide)

/-! ## Append -/

namespace EDB

/-- What an append to a table that is not full does: it returns `EDB_OK`, only
the store and `n_recs` change, slot `count() + 1` holds the new record, no
byte outside the header and that slot changes, and the header on the store is
the new one. -/
theorem appendRec_spec (P : Platform) (hP : P.Valid) (t : EDB) (hwf : WellFormed P t)
    (r : List Byte) (hfull : count t < limit P t) (hr : r.length = t.EDB_head.rec_size) :
    ∃ t' : EDB,
      appendRec P t r = (EDB_Status.EDB_OK, t') ∧
      t'.EDB_head_ptr = t.EDB_head_ptr ∧
      t'.EDB_table_ptr = t.EDB_table_ptr ∧
      t'.EDB_head = { t.EDB_head with n_recs := count t + 1 } ∧
      slotBytes P t'.store t.EDB_table_ptr t.EDB_head.rec_size (count t + 1) = r ∧
      (∀ x, (x < t.EDB_head_ptr ∨
          (t.EDB_table_ptr ≤ x ∧ x < t.EDB_table_ptr + count t * t.EDB_head.rec_size) ∨
          t.EDB_table_ptr + (count t + 1) * t.EDB_head.rec_size ≤ x) →
        t'.store x = t.store x) ∧
      edbRead P t'.store t.EDB_head_ptr (headLen P)
        = P.encodeHead { t.EDB_head with n_recs := count t + 1 } := by
  have hlim1 : 1 ≤ limit P t := by omega
  have hL := hwf.layout hP hlim1
  have hcnt := hwf.count_succ_lt hP
  simp only [count] at hfull hcnt ⊢
  unfold appendRec
  rw [uadd_eq P (by omega), if_neg (by omega)]
  simp only
  generalize ht1 : ({ t with EDB_head := { t.EDB_head with n_recs := t.EDB_head.n_recs + 1 } }
    : EDB) = t1
  have a1 : t1.EDB_head_ptr = t.EDB_head_ptr := by rw [← ht1]
  have a2 : t1.EDB_table_ptr = t.EDB_table_ptr := by rw [← ht1]
  have a3 : t1.EDB_head = { t.EDB_head with n_recs := t.EDB_head.n_recs + 1 } := by rw [← ht1]
  have a4 : t1.store = t.store := by rw [← ht1]
  have a5 : t1.EDB_head.rec_size = t.EDB_head.rec_size := by rw [a3]
  have hL1 : Layout P t1 (limit P t) := hL.of_eq a1 a2 a5
  have hsame := slotBytes_write_same P t1 (limit P t) (t.EDB_head.n_recs + 1) r hL1 (by omega)
    (by omega) (by rw [a5]; exact hr)
  have hout := fun x => writeRec_outside P t1 (limit P t) (t.EDB_head.n_recs + 1) r x hL1
    (by omega) (by omega)
  generalize ht2 : (writeRec P t1 (t.EDB_head.n_recs + 1) r).2 = t2 at hsame hout
  have b1 : t2.EDB_head_ptr = t.EDB_head_ptr := by rw [← ht2, ← a1]; rfl
  have b2 : t2.EDB_table_ptr = t.EDB_table_ptr := by rw [← ht2, ← a2]; rfl
  have b3 : t2.EDB_head = { t.EDB_head with n_recs := t.EDB_head.n_recs + 1 } := by
    rw [← ht2, ← a3]; rfl
  have b5 : t2.EDB_head.rec_size = t.EDB_head.rec_size := by rw [b3]
  rw [a2, a5] at hsame hout
  simp only [a4, Nat.add_sub_cancel] at hout
  have hL2 : Layout P t2 (limit P t) := hL.of_eq b1 b2 b5
  have hpersist := writeHead_persist P hP t2 (by rw [b1]; exact hwf.isOpen.head_ptr_lt)
  have hslot := fun i => slotBytes_writeHead P hP t2 (limit P t) i hL2
  have hhead := fun x => writeHead_outside P hP t2 x
    (by have := hL.table_ptr_eq; have := hL.slots_fit; rw [b1]; omega)
  rw [b1, b3] at hpersist
  rw [b2, b5] at hslot
  rw [b1] at hhead
  have htp := hL.table_ptr_eq
  refine ⟨writeHead P t2, rfl, b1, b2, b3, ?_, ?_, hpersist⟩
  · rw [hslot _ (by omega) (by omega)]
    exact hsame
  · intro x hx
    rw [hhead x (by omega), hout x (by omega)]

/-- C3: on a well-formed open table with `n < limit()` records and a record
`r` of `rec_size` bytes, `appendRec(r)` returns `EDB_OK`, `count()` becomes
`n + 1`, `readRec(n + 1)` then yields `r`, and `readRec(i)` is as before for
`1 ≤ i ≤ n`. -/
theorem appendRec_round_trip (P : Platform) (hP : P.Valid) (t : EDB) (hwf : WellFormed P t)
    (r : List Byte) (hfull : count t < limit P t) (hr : r.length = t.EDB_head.rec_size) :
    (appendRec P t r).1 = EDB_Status.EDB_OK ∧
    count (appendRec P t r).2 = count t + 1 ∧
    (∀ buf, readResult P (appendRec P t r).2 (count t + 1) buf = (EDB_Status.EDB_OK, r)) ∧
    (∀ i buf, 1 ≤ i → i ≤ count t →
      readResult P t i buf = (EDB_Status.EDB_OK, (readResult P t i buf).2) ∧
      readResult P (appendRec P t r).2 i buf = readResult P t i buf) := by
  obtain ⟨t', hrun, e1, e2, e3, hnew, hframe, -⟩ := appendRec_spec P hP t hwf r hfull hr
  have hL := hwf.layout hP (by omega)
  have hL' : Layout P t' (limit P t) := hL.of_eq e1 e2 (by rw [e3])
  have e4 : t'.EDB_head.rec_size = t.EDB_head.rec_size := by rw [e3]
  have e5 : t'.EDB_head.n_recs = t.EDB_head.n_recs + 1 := by rw [e3]; rfl
  rw [hrun]
  simp only [count] at hfull hnew hframe ⊢
  refine ⟨trivial, e5, ?_, ?_⟩
  · intro buf
    rw [readResult_in_range P t' (limit P t) _ buf hL' (by omega) (by omega) (by omega), e2, e4,
      hnew]
  · intro i buf hi1 hin
    rw [readResult_in_range P t' (limit P t) i buf hL' hi1 (by omega) (by omega),
      readResult_in_range P t (limit P t) i buf hL hi1 hin (by omega), e2, e4]
    refine ⟨rfl, ?_⟩
    congr 1
    apply slotBytes_congr P t (limit P t) i _ _ hL hi1 (by omega)
    intro x hx1 hx2
    have hm : i * t.EDB_head.rec_size ≤ t.EDB_head.n_recs * t.EDB_head.rec_size :=
      Nat.mul_le_mul_right _ hin
    exact hframe x (by omega)

end EDB

/-- C3 at a concrete input: appending `recD` to `tableABC`. -/
theorem appendRec_round_trip_witness :
    (EDB.appendRec avr tableABC recD).1 = EDB_Status.EDB_OK ∧
    EDB.count (EDB.appendRec avr tableABC recD).2 = EDB.count tableABC + 1 ∧
    (∀ buf, EDB.readResult avr (EDB.appendRec avr tableABC recD).2 (EDB.count tableABC + 1) buf
      = (EDB_Status.EDB_OK, recD)) ∧
    (∀ i buf, 1 ≤ i → i ≤ EDB.count tableABC →
      EDB.readResult avr tableABC i buf
        = (EDB_Status.EDB_OK, (EDB.readResult avr tableABC i buf).2) ∧
      EDB.readResult avr (EDB.appendRec avr tableABC recD).2 i buf
        = EDB.readResult avr tableABC i buf) :=
  EDB.appendRec_round_trip avr avr_valid tableABC tableABC_wf recD (by decide) (by decide)

/-! ## The capacity invariant -/

/-- C4 (failing input): `tableEmpty` satisfies the capacity invariant with
`rec_size ≥ 1` and `table_size ≥ sizeof(EDB_Header)`, yet `deleteRec(0)` on it
returns `EDB_OK` for any fuel `≥ 1` and leaves `count() = 2^32 - 1` while
`limit()` is still 22: the test `recno < 0` never fires, the loop body is
skipped and `n_recs--` wraps. -/
theorem deleteRec_zero_breaks_capacity :
    EDB.count tableEmpty ≤ EDB.limit avr tableEmpty ∧
    1 ≤ tableEmpty.EDB_head.rec_size ∧
    avr.headerSize ≤ tableEmpty.EDB_head.table_size ∧
    ∀ fuel, (EDB.deleteRec avr (fuel + 1) tableEmpty 0).map
        (fun res => (res.1, EDB.count res.2, EDB.limit avr res.2))
      = some (EDB_Status.EDB_OK, 4294967295, 22) := by
  refine ⟨by decide, by decide, by decide, ?_⟩
  intro fuel
  rfl

/-! ## A full table -/

namespace EDB

/-- C5 (as amended): on a table with `rec_size ≥ 1` and `count() == limit()`,
`insertRec` returns `EDB_TABLE_FULL` for every `recno`, and `appendRec` returns
`EDB_TABLE_FULL` when `count() + 1` does not wrap, which is the case whenever
`sizeof(EDB_Header) ≤ table_size`; both leave the store and the cached header
as they were. -/
theorem full_table_refuses (P : Platform) (t : EDB) (r : List Byte) (recno fuel : Nat)
    (_hrs : 1 ≤ t.EDB_head.rec_size) (hfull : count t = limit P t) :
    insertRec P fuel t recno r = some (EDB_Status.EDB_TABLE_FULL, t) ∧
    (count t + 1 < P.ulongMod → appendRec P t r = (EDB_Status.EDB_TABLE_FULL, t)) ∧
    (P.Valid → P.headerSize ≤ t.EDB_head.table_size → t.EDB_head.table_size < P.ulongMod →
      appendRec P t r = (EDB_Status.EDB_TABLE_FULL, t)) := by
  have happ : count t + 1 < P.ulongMod → appendRec P t r = (EDB_Status.EDB_TABLE_FULL, t) := by
    intro hwrap
    unfold appendRec
    simp only [count] at hfull hwrap
    rw [uadd_eq P hwrap, if_pos (by omega)]
  refine ⟨?_, happ, ?_⟩
  · unfold insertRec
    rw [if_pos hfull]
  · intro hP hle hts
    apply happ
    have hpos := hP.header_pos
    have hlim := limit_eq P t hle hts
    have hdiv : limit P t ≤ t.EDB_head.table_size - P.headerSize := by
      rw [hlim]; exact Nat.div_le_self _ _
    omega

end EDB

/-- C5 at concrete inputs: `tableFull` holds 3 records and has room for 3, so
both calls are refused; on `tableWrapped`, where `count() + 1` wraps,
`insertRec` is still refused. -/
theorem full_table_refuses_witness :
    EDB.insertRec avr 0 tableFull 2 recD = some (EDB_Status.EDB_TABLE_FULL, tableFull) ∧
    EDB.appendRec avr tableFull recD = (EDB_Status.EDB_TABLE_FULL, tableFull) ∧
    EDB.insertRec avr 0 tableWrapped 2 [7]
      = some (EDB_Status.EDB_TABLE_FULL, tableWrapped) :=
  ⟨(EDB.full_table_refuses avr tableFull recD 2 0 (by decide) (by decide)).1,
    (EDB.full_table_refuses avr tableFull recD 2 0 (by decide) (by decide)).2.2 avr_valid
      (by decide) (by decide),
    (EDB.full_table_refuses avr tableWrapped [7] 2 0 (by decide) (by decide)).1⟩

/-- C5 (counterexample): `tableWrapped` is an open table with `rec_size = 1`
and `count() == limit()` (both `2^32 - 1`), and `appendRec` on it does not
return `EDB_TABLE_FULL`: `n_recs + 1` wraps to `0`, the test passes, the call
returns `EDB_OK` and `count()` becomes `0`. -/
theorem appendRec_full_counterexample :
    EDB.IsOpen avr tableWrapped ∧
    1 ≤ tableWrapped.EDB_head.rec_size ∧
    EDB.count tableWrapped = EDB.limit avr tableWrapped ∧
    (EDB.appendRec avr tableWrapped [7]).1 = EDB_Status.EDB_OK ∧
    EDB.count (EDB.appendRec avr tableWrapped [7]).2 = 0 :=
  ⟨⟨by decide, by decide, by decide, ⟨by decide, by decide, by decide, by decide⟩⟩,
    by decide, by decide, by decide, by decide⟩

/-! ## Read -/

namespace EDB

theorem recAddr_mod (P : Platform) (t : EDB) (ho : IsOpen P t) (recno : Nat) (h1 : 1 ≤ recno)
    (h2 : recno ≤ count t) :
    recAddr P t recno
      = (t.EDB_head_ptr + P.headerSize + (recno - 1) * t.EDB_head.rec_size) % P.ulongMod := by
  have hn := ho.in_range.n_recs_lt
  simp only [count] at h2
  unfold recAddr
  rw [usub_eq P h1 (by omega), ho.table_ptr_eq]
  unfold Platform.uadd Platform.umul
  rw [← Nat.add_mod, Nat.add_comm P.headerSize t.EDB_head_ptr]

/-- C6: on an open table `readRec(recno, buf)` returns `EDB_OUT_OF_RANGE`
exactly when `recno < 1` or `recno > count()` (so for `0` and `count() + 1`),
leaving `buf` alone; otherwise it returns `EDB_OK` and `buf` holds the
`rec_size` bytes at the addresses `base + sizeof(EDB_Header) +
(recno - 1) * rec_size + j` (taken in the `unsigned long` address space);
in every case the engine, store and header included, is unchanged. -/
theorem readRec_contract (P : Platform) (t : EDB) (ho : IsOpen P t) (recno : Nat)
    (buf : List Byte) :
    ((readRec P t recno buf).1 = EDB_Status.EDB_OUT_OF_RANGE ↔ (recno < 1 ∨ recno > count t)) ∧
    (readRec P t 0 buf).1 = EDB_Status.EDB_OUT_OF_RANGE ∧
    (readRec P t (count t + 1) buf).1 = EDB_Status.EDB_OUT_OF_RANGE ∧
    ((recno < 1 ∨ recno > count t) → (readRec P t recno buf).2.1 = buf) ∧
    (¬ (recno < 1 ∨ recno > count t) →
      (readRec P t recno buf).1 = EDB_Status.EDB_OK ∧
      (readRec P t recno buf).2.1 = (List.range t.EDB_head.rec_size).map (fun j =>
        t.store ((t.EDB_head_ptr + P.headerSize + (recno - 1) * t.EDB_head.rec_size + j)
          % P.ulongMod))) ∧
    (readRec P t recno buf).2.2 = t := by
  refine ⟨?_, ?_, ?_, ?_, ?_, ?_⟩
  · by_cases h : recno < 1 ∨ recno > count t
    · have h' := h
      simp only [count] at h'
      simp only [readRec, if_pos h', true_iff]
      exact h
    · have h' := h
      simp only [count] at h'
      simp only [readRec, if_neg h']
      constructor
      · intro hc; cases hc
      · intro hc; exact absurd hc h
  · simp [readRec]
  · simp [readRec, count]
  · intro h
    simp only [count] at h
    simp only [readRec, if_pos h]
  · intro h
    have h1 : 1 ≤ recno := by omega
    have h2 : recno ≤ count t := by omega
    simp only [count] at h
    simp only [readRec, if_neg h, true_and]
    rw [recAddr_mod P t ho recno h1 h2,
      edbRead_eq_map P _ _ _ (Nat.mod_lt _ (ulongMod_pos P))]
    apply List.map_congr_left
    intro j _
    rw [Nat.mod_add_mod]
  · by_cases h : recno < 1 ∨ recno > t.EDB_head.n_recs
    · simp only [readRec, if_pos h]
    · simp only [readRec, if_neg h]

end EDB

theorem tableABC_open : EDB.IsOpen avr tableABC :=
  ⟨by decide, by decide, by decide, ⟨by decide, by decide, by decide, by decide⟩⟩

/-- C6 at a concrete input: reading record 2 of `tableABC`. -/
theorem readRec_contract_witness :
    ((EDB.readRec avr tableABC 2 recD).1 = EDB_Status.EDB_OUT_OF_RANGE ↔
      (2 < 1 ∨ 2 > EDB.count tableABC)) ∧
    (EDB.readRec avr tableABC 0 recD).1 = EDB_Status.EDB_OUT_OF_RANGE ∧
    (EDB.readRec avr tableABC (EDB.count tableABC + 1) recD).1 = EDB_Status.EDB_OUT_OF_RANGE ∧
    ((2 < 1 ∨ 2 > EDB.count tableABC) → (EDB.readRec avr tableABC 2 recD).2.1 = recD) ∧
    (¬ (2 < 1 ∨ 2 > EDB.count tableABC) →
      (EDB.readRec avr tableABC 2 recD).1 = EDB_Status.EDB_OK ∧
      (EDB.readRec avr tableABC 2 recD).2.1 = (List.range tableABC.EDB_head.rec_size).map
        (fun j => tableABC.store ((tableABC.EDB_head_ptr + avr.headerSize
          + (2 - 1) * tableABC.EDB_head.rec_size + j) % avr.ulongMod))) ∧
    (EDB.readRec avr tableABC 2 recD).2.2 = tableABC :=
  EDB.readRec_contract avr tableABC tableABC_open 2 recD

/-! ## Update -/

/-- C7 (failing input): `updateRec(0, recD)` on `tableABC` returns `EDB_OK`
instead of `EDB_OUT_OF_RANGE` and writes the four bytes of `recD` at addresses
7..10, over the `table_size` field of the header on the store: the test
`recno < 0` never fires and `writeRec(0, ...)` computes
`EDB_table_ptr - rec_size`. -/
theorem updateRec_zero_writes :
    (EDB.updateRec avr tableABC 0 recD).1 = EDB_Status.EDB_OK ∧
    (List.range 4).map (fun j => tableABC.store (7 + j)) = [100, 0, 0, 0] ∧
    (List.range 4).map (fun j => (EDB.updateRec avr tableABC 0 recD).2.store (7 + j)) = recD := by
  refine ⟨by decide, by decide, by decide⟩

namespace EDB

/-- What an in-range update does: it returns `EDB_OK`, only the store changes,
slot `k` holds the new record and no byte outside slot `k` changes. -/
theorem updateRec_spec (P : Platform) (hP : P.Valid) (t : EDB) (hwf : WellFormed P t)
    (k : Nat) (r : List Byte) (hk1 : 1 ≤ k) (hkn : k ≤ count t)
    (hr : r.length = t.EDB_head.rec_size) :
    ∃ t' : EDB,
      updateRec P t k r = (EDB_Status.EDB_OK, t') ∧
      t'.EDB_head_ptr = t.EDB_head_ptr ∧
      t'.EDB_table_ptr = t.EDB_table_ptr ∧
      t'.EDB_head = t.EDB_head ∧
      slotBytes P t'.store t.EDB_table_ptr t.EDB_head.rec_size k = r ∧
      (∀ x, (x < t.EDB_table_ptr + (k - 1) * t.EDB_head.rec_size ∨
          t.EDB_table_ptr + k * t.EDB_head.rec_size ≤ x) → t'.store x = t.store x) := by
  have hcap := hwf.capacity
  have hL := hwf.layout hP (by omega)
  simp only [count] at hkn hcap
  unfold updateRec
  rw [if_neg (by omega)]
  exact ⟨_, rfl, rfl, rfl, rfl,
    slotBytes_write_same P t (limit P t) k r hL hk1 (by omega) hr,
    fun x hx => writeRec_outside P t (limit P t) k r x hL hk1 (by omega) hx⟩

/-- C8: on a well-formed open table with `n` records, for `1 ≤ k ≤ n` and a
record `r` of `rec_size` bytes, `updateRec(k, r)` returns `EDB_OK`, `readRec(k)`
then yields `r`, `readRec(i)` is as before for every other `i` in `1..n`, and
`count()`, `limit()`, the cached header and the header bytes on the store are
unchanged. -/
theorem updateRec_in_place (P : Platform) (hP : P.Valid) (t : EDB) (hwf : WellFormed P t)
    (k : Nat) (r : List Byte) (hk1 : 1 ≤ k) (hkn : k ≤ count t)
    (hr : r.length = t.EDB_head.rec_size) :
    (updateRec P t k r).1 = EDB_Status.EDB_OK ∧
    (∀ buf, readResult P (updateRec P t k r).2 k buf = (EDB_Status.EDB_OK, r)) ∧
    (∀ i buf, 1 ≤ i → i ≤ count t → i ≠ k →
      readResult P t i buf = (EDB_Status.EDB_OK, (readResult P t i buf).2) ∧
      readResult P (updateRec P t k r).2 i buf = readResult P t i buf) ∧
    count (updateRec P t k r).2 = count t ∧
    limit P (updateRec P t k r).2 = limit P t ∧
    (updateRec P t k r).2.EDB_head = t.EDB_head ∧
    (∀ x, t.EDB_head_ptr ≤ x → x < t.EDB_head_ptr + P.headerSize →
      (updateRec P t k r).2.store x = t.store x) := by
  obtain ⟨t', hrun, e1, e2, e3, hnew, hframe⟩ := updateRec_spec P hP t hwf k r hk1 hkn hr
  have hcap := hwf.capacity
  have hL := hwf.layout hP (by omega)
  have hL' : Layout P t' (limit P t) := hL.of_eq e1 e2 (by rw [e3])
  have htp := hL.table_ptr_eq
  rw [hrun]
  simp only [count] at hkn hcap ⊢
  refine ⟨trivial, ?_, ?_, by rw [e3], by unfold limit; rw [e3], e3, ?_⟩
  · intro buf
    rw [readResult_in_range P t' (limit P t) k buf hL' hk1 (by rw [e3]; omega) (by omega), e2, e3,
      hnew]
  · intro i buf hi1 hin hik
    rw [readResult_in_range P t' (limit P t) i buf hL' hi1 (by rw [e3]; omega) (by omega),
      readResult_in_range P t (limit P t) i buf hL hi1 hin (by omega), e2, e3]
    refine ⟨rfl, ?_⟩
    congr 1
    apply slotBytes_congr P t (limit P t) i _ _ hL hi1 (by omega)
    intro x hx1 hx2
    apply hframe
    rcases Nat.lt_or_gt_of_ne hik with h | h
    · left
      have hm : i * t.EDB_head.rec_size ≤ (k - 1) * t.EDB_head.rec_size :=
        Nat.mul_le_mul_right _ (by omega)
      omega
    · right
      have hm : k * t.EDB_head.rec_size ≤ (i - 1) * t.EDB_head.rec_size :=
        Nat.mul_le_mul_right _ (by omega)
      omega
  · intro x hx1 hx2
    exact hframe x (by omega)

end EDB

/-- C8 at a concrete input: overwriting record 2 of `tableABC` with `recD`. -/
theorem updateRec_in_place_witness :
    (EDB.updateRec avr tableABC 2 recD).1 = EDB_Status.EDB_OK ∧
    (∀ buf, EDB.readResult avr (EDB.updateRec avr tableABC 2 recD).2 2 buf
      = (EDB_Status.EDB_OK, recD)) ∧
    (∀ i buf, 1 ≤ i → i ≤ EDB.count tableABC → i ≠ 2 →
      EDB.readResult avr tableABC i buf
        = (EDB_Status.EDB_OK, (EDB.readResult avr tableABC i buf).2) ∧
      EDB.readResult avr (EDB.updateRec avr tableABC 2 recD).2 i buf
        = EDB.readResult avr tableABC i buf) ∧
    EDB.count (EDB.updateRec avr tableABC 2 recD).2 = EDB.count tableABC ∧
    EDB.limit avr (EDB.updateRec avr tableABC 2 recD).2 = EDB.limit avr tableABC ∧
    (EDB.updateRec avr tableABC 2 recD).2.EDB_head = tableABC.EDB_head ∧
    (∀ x, tableABC.EDB_head_ptr ≤ x → x < tableABC.EDB_head_ptr + avr.headerSize →
      (EDB.updateRec avr tableABC 2 recD).2.store x = tableABC.store x) :=
  EDB.updateRec_in_place avr avr_valid tableABC tableABC_wf 2 recD (by decide) (by decide)
    (by decide)

/-! ## Create -/

namespace EDB

/-- C9: for every base address, every `rec_size ≥ 1` and every `table_size`
above `sizeof(EDB_Header) + rec_size` that fit their C types, `create` returns
`EDB_OK`, and afterwards `count() == 0` and
`limit() == (table_size - sizeof(EDB_Header)) / rec_size` (rounded down). -/
theorem create_count_limit (P : Platform) (t : EDB) (base ts rs : Nat)
    (_hbase : base < P.ulongMod) (hts : ts < P.ulongMod) (_hrs : rs < P.uintMod)
    (_hrs1 : 1 ≤ rs) (hgt : P.headerSize + rs < ts) :
    (create P t base ts rs).1 = EDB_Status.EDB_OK ∧
    count (create P t base ts rs).2 = 0 ∧
    limit P (create P t base ts rs).2 = (ts - P.headerSize) / rs := by
  refine ⟨rfl, rfl, ?_⟩
  simp only [create, writeHead, limit]
  rw [usub_eq P (by omega) hts]

end EDB

/-- C9 at a concrete input: `create(0, 100, 4)` on the AVR platform. -/
theorem create_count_limit_witness :
    (EDB.create avr blank 0 100 4).1 = EDB_Status.EDB_OK ∧
    EDB.count (EDB.create avr blank 0 100 4).2 = 0 ∧
    EDB.limit avr (EDB.create avr blank 0 100 4).2 = (100 - avr.headerSize) / 4 :=
  EDB.create_count_limit avr blank 0 100 4 (by decide) (by decide) (by decide) (by decide)
    (by decide)

/-! ## The header after a sequence of operations -/

theorem HeaderInRange.set_n_recs {P : Platform} {h : EDB_Header} (hr : HeaderInRange P h)
    (n : Nat) (hn : n < P.ulongMod) : HeaderInRange P { h with n_recs := n } :=
  ⟨hr.flag_lt, hn, hr.rec_size_lt, hr.table_size_lt⟩

theorem usub_lt (P : Platform) (a b : Nat) : P.usub a b < P.ulongMod :=
  Nat.mod_lt _ (ulongMod_pos P)

namespace EDB

/-- The loop of `insertRec` changes only the store. -/
theorem insertLoop_fields (P : Platform) (k : Nat) :
    ∀ (fuel : Nat) (t : EDB) (i : Nat) (buf : List Byte) (t' : EDB),
      insertLoop P k fuel t i buf = some t' →
      t'.EDB_head_ptr = t.EDB_head_ptr ∧ t'.EDB_table_ptr = t.EDB_table_ptr ∧
        t'.EDB_head = t.EDB_head := by
  intro fuel
  induction fuel with
  | zero => intro t i buf t' h; simp [insertLoop] at h
  | succ fuel ih =>
    intro t i buf t' h
    rw [insertLoop] at h
    by_cases hik : i ≥ k
    · rw [if_pos hik] at h
      have hrec : (readRec P t i buf).2.2 = t := by
        unfold readRec; split <;> rfl
      simp only [hrec] at h
      exact ih (writeRec P t _ _).2 _ _ t' h
    · rw [if_neg hik] at h
      cases h
      exact ⟨rfl, rfl, rfl⟩

/-- The loop of `deleteRec` changes only the store. -/
theorem deleteLoop_fields (P : Platform) :
    ∀ (fuel : Nat) (t : EDB) (i : Nat) (buf : List Byte) (t' : EDB),
      deleteLoop P fuel t i buf = some t' →
      t'.EDB_head_ptr = t.EDB_head_ptr ∧ t'.EDB_table_ptr = t.EDB_table_ptr ∧
        t'.EDB_head = t.EDB_head := by
  intro fuel
  induction fuel with
  | zero => intro t i buf t' h; simp [deleteLoop] at h
  | succ fuel ih =>
    intro t i buf t' h
    rw [deleteLoop] at h
    by_cases hik : i ≤ t.EDB_head.n_recs
    · rw [if_pos hik] at h
      have hrec : (readRec P t i buf).2.2 = t := by
        unfold readRec; split <;> rfl
      simp only [hrec] at h
      exact ih (writeRec P t _ _).2 _ _ t' h
    · rw [if_neg hik] at h
      cases h
      exact ⟨rfl, rfl, rfl⟩

/-- A header flush makes the header on the store the cached one. -/
theorem Persisted.of_writeHead (P : Platform) (hP : P.Valid) (base : Nat) (t : EDB)
    (hbase : base < P.ulongMod) (h1 : t.EDB_head_ptr = base)
    (h2 : t.EDB_head.flag = P.EDB_FLAG) (h3 : HeaderInRange P t.EDB_head) :
    Persisted P base (writeHead P t) := by
  refine ⟨h1, h2, h3, ?_⟩
  have := writeHead_persist P hP t (by rw [h1]; exact hbase)
  rw [h1] at this
  exact this


theorem Persisted.appendRec {P : Platform} {base : Nat} {t : EDB} (hP : P.Valid)
    (hbase : base < P.ulongMod) (h : Persisted P base t) (r : List Byte) :
    Persisted P base (appendRec P t r).2 := by
  unfold EDB.appendRec
  split
  · exact h
  · exact Persisted.of_writeHead P hP base _ hbase h.head_ptr_eq h.flag_eq
      (h.in_range.set_n_recs _ (uadd_lt P _ _))

theorem Persisted.insertRec {P : Platform} {base : Nat} {t t' : EDB} (hP : P.Valid)
    (hbase : base < P.ulongMod) (h : Persisted P base t) (fuel recno : Nat) (r : List Byte)
    (s : EDB_Status) (hrun : insertRec P fuel t recno r = some (s, t')) :
    Persisted P base t' := by
  unfold EDB.insertRec at hrun
  split at hrun
  · cases hrun; exact h
  · split at hrun
    · cases hrun; exact h
    · split at hrun
      · have : t' = (EDB.appendRec P t r).2 := by rw [Option.some.inj hrun]
        rw [this]
        exact h.appendRec hP hbase r
      · split at hrun
        · cases hrun
        · rename_i t1 hloop
          obtain ⟨f1, -, f3⟩ := insertLoop_fields P recno fuel t _ _ t1 hloop
          cases hrun
          refine Persisted.of_writeHead P hP base _ hbase ?_ ?_ ?_
          · exact f1.trans h.head_ptr_eq
          · show t1.EDB_head.flag = P.EDB_FLAG
            rw [f3]; exact h.flag_eq
          · have hr := h.in_range
            rw [← f3] at hr
            exact hr.set_n_recs _ (uadd_lt P _ _)

theorem Persisted.deleteRec {P : Platform} {base : Nat} {t t' : EDB} (hP : P.Valid)
    (hbase : base < P.ulongMod) (h : Persisted P base t) (fuel recno : Nat)
    (s : EDB_Status) (hrun : deleteRec P fuel t recno = some (s, t')) :
    Persisted P base t' := by
  unfold EDB.deleteRec at hrun
  split at hrun
  · cases hrun; exact h
  · split at hrun
    · cases hrun
    · rename_i t1 hloop
      obtain ⟨f1, -, f3⟩ := deleteLoop_fields P fuel t _ _ t1 hloop
      cases hrun
      refine Persisted.of_writeHead P hP base _ hbase ?_ ?_ ?_
      · exact f1.trans h.head_ptr_eq
      · show t1.EDB_head.flag = P.EDB_FLAG
        rw [f3]; exact h.flag_eq
      · have hr := h.in_range
        rw [← f3] at hr
        exact hr.set_n_recs _ (usub_lt P _ _)

theorem Persisted.create (P : Platform) (hP : P.Valid) (t0 : EDB) (base ts rs : Nat)
    (hbase : base < P.ulongMod) (hts : ts < P.ulongMod) (hrs : rs < P.uintMod) :
    Persisted P base (create P t0 base ts rs).2 :=
  Persisted.of_writeHead P hP base _ hbase rfl rfl
    ⟨hP.flag_lt, ulongMod_pos P, hrs, hts⟩

theorem Reachable.persisted {P : Platform} {base ts rs : Nat} {t : EDB} (hP : P.Valid)
    (hbase : base < P.ulongMod) (hts : ts < P.ulongMod) (hrs : rs < P.uintMod)
    (h : Reachable P base ts rs t) : Persisted P base t := by
  induction h with
  | init t0 => exact Persisted.create P hP t0 base ts rs hbase hts hrs
  | append r _ ih => exact ih.appendRec hP hbase r
  | insert fuel recno r s _ _ hrun ih => exact ih.insertRec hP hbase fuel recno r s hrun
  | delete fuel recno s _ _ _ hrun ih => exact ih.deleteRec hP hbase fuel recno s hrun

/-- Opening a table whose header is on the store succeeds and loads the
cached header. -/
theorem Persisted.openTable {P : Platform} {base : Nat} {t : EDB} (hP : P.Valid)
    (h : Persisted P base t) :
    (openTable P t base).1 = EDB_Status.EDB_OK ∧
      (openTable P t base).2.EDB_head = t.EDB_head ∧
      (openTable P t base).2.store = t.store := by
  have hd : P.decodeHead (edbRead P t.store base (headLen P)) = t.EDB_head := by
    rw [h.on_store]; exact hP.decode_encode _ h.in_range
  unfold EDB.openTable
  simp only [readHead, hd, h.flag_eq, if_true, and_self]

end EDB

namespace EDB

/-- C10: starting from `create(base, ts, rs)` and after any sequence of
`appendRec`, `insertRec` (with `1 ≤ recno ≤ count()`, or `recno == 1` on an
empty table) and `deleteRec` (with `1 ≤ recno ≤ count()`) calls, `open(base)`
on the resulting store returns `EDB_OK` and loads the `count()`, `rec_size`
and `table_size` the engine held in memory just before. -/
theorem open_after_operations (P : Platform) (hP : P.Valid) (base ts rs : Nat)
    (hbase : base < P.ulongMod) (hts : ts < P.ulongMod) (hrs : rs < P.uintMod) (t : EDB)
    (h : Reachable P base ts rs t) :
    (openTable P t base).1 = EDB_Status.EDB_OK ∧
    count (openTable P t base).2 = count t ∧
    (openTable P t base).2.EDB_head.rec_size = t.EDB_head.rec_size ∧
    (openTable P t base).2.EDB_head.table_size = t.EDB_head.table_size := by
  obtain ⟨h1, h2, -⟩ := (h.persisted hP hbase hts hrs).openTable hP
  refine ⟨h1, ?_, ?_, ?_⟩
  · unfold count; rw [h2]
  · rw [h2]
  · rw [h2]

end EDB

theorem tableABC_reachable : EDB.Reachable avr 0 100 4 tableABC :=
  .append recC (.append recB (.append recA (.init blank)))

theorem tableDBC_reachable : EDB.Reachable avr 0 100 4 tableDBC :=
  .delete 4 1 EDB_Status.EDB_OK
    (.insert 3 2 recD EDB_Status.EDB_OK tableABC_reachable (Or.inl ⟨by decide, by decide⟩) rfl)
    (by decide) (by decide) rfl

/-- C10 at a concrete input: create, three appends, an insert at 2 and a
delete at 1 on the AVR platform, then `open(0)`. -/
theorem open_after_operations_witness :
    (EDB.openTable avr tableDBC 0).1 = EDB_Status.EDB_OK ∧
    EDB.count (EDB.openTable avr tableDBC 0).2 = EDB.count tableDBC ∧
    (EDB.openTable avr tableDBC 0).2.EDB_head.rec_size = tableDBC.EDB_head.rec_size ∧
    (EDB.openTable avr tableDBC 0).2.EDB_head.table_size = tableDBC.EDB_head.table_size :=
  EDB.open_after_operations avr avr_valid 0 100 4 (by decide) (by decide) (by decide) tableDBC
    tableDBC_reachable

/-! ## Open -/

namespace EDB

/-- C11: for every store and base address, `open(base)` returns `EDB_OK`
exactly when the flag of the header decoded from the `sizeof(EDB_Header)`
bytes at `base` is `EDB_FLAG`, and `EDB_ERROR` otherwise; two stores whose
decoded flags agree get the same status, whatever the other fields are. -/
theorem open_status_iff_flag (P : Platform) (hP : P.Valid) (t : EDB) (base : Nat) :
    ((openTable P t base).1 = EDB_Status.EDB_OK ↔
      (P.decodeHead (edbRead P t.store base P.headerSize)).flag = P.EDB_FLAG) ∧
    ((P.decodeHead (edbRead P t.store base P.headerSize)).flag ≠ P.EDB_FLAG →
      (openTable P t base).1 = EDB_Status.EDB_ERROR) ∧
    (∀ t2 : EDB,
      (P.decodeHead (edbRead P t2.store base P.headerSize)).flag
        = (P.decodeHead (edbRead P t.store base P.headerSize)).flag →
      (openTable P t2 base).1 = (openTable P t base).1) := by
  have hst : ∀ u : EDB, (openTable P u base).1 =
      if (P.decodeHead (edbRead P u.store base P.headerSize)).flag = P.EDB_FLAG
      then EDB_Status.EDB_OK else EDB_Status.EDB_ERROR := by
    intro u
    simp only [openTable, readHead, headLen_eq P hP]
    split <;> rfl
  refine ⟨?_, ?_, ?_⟩
  · rw [hst t]
    split
    · simp [*]
    · simp [*]
  · intro h
    rw [hst t, if_neg h]
  · intro t2 h
    rw [hst t, hst t2, h]

/-- C12: calling `open(base)` twice in a row gives the same status both times
and the same engine state after the second call as after the first, and no
call changes a byte of the store. -/
theorem open_idempotent (P : Platform) (t : EDB) (base : Nat) :
    (openTable P (openTable P t base).2 base).1 = (openTable P t base).1 ∧
    (openTable P (openTable P t base).2 base).2.EDB_head = (openTable P t base).2.EDB_head ∧
    (openTable P (openTable P t base).2 base).2 = (openTable P t base).2 ∧
    (openTable P t base).2.store = t.store ∧
    (openTable P (openTable P t base).2 base).2.store = t.store := by
  have hstore : ∀ u : EDB, (openTable P u base).2.store = u.store := by
    intro u
    simp only [openTable, readHead]
    split <;> rfl
  have hhead : ∀ u : EDB, (openTable P u base).2 =
      { store := u.store
        EDB_head_ptr := base
        EDB_table_ptr := P.uadd P.headerSize base
        EDB_head := P.decodeHead (edbRead P u.store base (headLen P)) } := by
    intro u
    simp only [openTable, readHead]
    split <;> rfl
  have hst : ∀ u : EDB, (openTable P u base).1 =
      if (P.decodeHead (edbRead P u.store base (headLen P))).flag = P.EDB_FLAG
      then EDB_Status.EDB_OK else EDB_Status.EDB_ERROR := by
    intro u
    simp only [openTable, readHead]
    split <;> rfl
  have h2 : (openTable P (openTable P t base).2 base).2 = (openTable P t base).2 := by
    rw [hhead (openTable P t base).2, hstore t, ← hhead t]
  refine ⟨?_, by rw [h2], h2, hstore t, by rw [h2]; exact hstore t⟩
  rw [hst (openTable P t base).2, hstore t, ← hst t]

end EDB

/-- C11 at a concrete input: `open(0)` on the store of `tableABC`. -/
theorem open_status_iff_flag_witness :
    ((EDB.openTable avr tableABC 0).1 = EDB_Status.EDB_OK ↔
      (avr.decodeHead (EDB.edbRead avr tableABC.store 0 avr.headerSize)).flag = avr.EDB_FLAG) ∧
    ((avr.decodeHead (EDB.edbRead avr tableABC.store 0 avr.headerSize)).flag ≠ avr.EDB_FLAG →
      (EDB.openTable avr tableABC 0).1 = EDB_Status.EDB_ERROR) ∧
    (∀ t2 : EDB,
      (avr.decodeHead (EDB.edbRead avr t2.store 0 avr.headerSize)).flag
        = (avr.decodeHead (EDB.edbRead avr tableABC.store 0 avr.headerSize)).flag →
      (EDB.openTable avr t2 0).1 = (EDB.openTable avr tableABC 0).1) :=
  EDB.open_status_iff_flag avr avr_valid tableABC 0

/-! ## Clear -/

namespace EDB

/-- Changing only the store and the record count of a well-formed table, to a
count within the capacity, gives a well-formed table. -/
theorem WellFormed.of_fields {P : Platform} {t t' : EDB} (hwf : WellFormed P t)
    (h1 : t'.EDB_head_ptr = t.EDB_head_ptr) (h2 : t'.EDB_table_ptr = t.EDB_table_ptr)
    (m : Nat) (h3 : t'.EDB_head = { t.EDB_head with n_recs := m }) (hm : m ≤ limit P t)
    (hmM : m < P.ulongMod) : WellFormed P t' := by
  have hlim : limit P t' = limit P t := by unfold limit; rw [h3]
  refine ⟨⟨?_, ?_, ?_, ⟨?_, ?_, ?_, ?_⟩⟩, ?_, ?_, ?_, ?_⟩
  · rw [h1]; exact hwf.isOpen.head_ptr_lt
  · rw [h1, h2]; exact hwf.isOpen.table_ptr_eq
  · rw [h3]; exact hwf.isOpen.flag_eq
  · rw [h3]; exact hwf.isOpen.in_range.flag_lt
  · rw [h3]; exact hmM
  · rw [h3]; exact hwf.isOpen.in_range.rec_size_lt
  · rw [h3]; exact hwf.isOpen.in_range.table_size_lt
  · rw [h3]; exact hwf.rec_size_pos
  · rw [h3]; exact hwf.header_le
  · rw [h1, h3]; exact hwf.no_overflow
  · rw [hlim]; unfold count; rw [h3]; exact hm

/-- What `clear` does to a well-formed table whose header is on the store:
only the store and `n_recs` change, and `n_recs` becomes `0`. -/
theorem clear_spec (P : Platform) (hP : P.Valid) (t : EDB) (hwf : WellFormed P t)
    (hps : edbRead P t.store t.EDB_head_ptr (headLen P) = P.encodeHead t.EDB_head) :
    (clear P t).EDB_head_ptr = t.EDB_head_ptr ∧
    (clear P t).EDB_table_ptr = t.EDB_table_ptr ∧
    (clear P t).EDB_head = { t.EDB_head with n_recs := 0 } := by
  have hd : P.decodeHead (edbRead P t.store t.EDB_head_ptr (headLen P)) = t.EDB_head := by
    rw [hps]; exact hP.decode_encode _ hwf.isOpen.in_range
  simp only [clear, create, readHead, writeHead, hd]
  refine ⟨trivial, hwf.isOpen.table_ptr_eq.symm, ?_⟩
  rw [← hwf.isOpen.flag_eq]

/-- C13: on a well-formed open table whose cached header is the one on the
store and with `limit() ≥ 1`, after `clear()` `count()` is `0` and `limit()` is
what it was; a following `appendRec(r)` returns `EDB_OK`, makes `count()` equal
to `1`, and `readRec(1)` yields `r`. -/
theorem clear_then_append (P : Platform) (hP : P.Valid) (t : EDB) (hwf : WellFormed P t)
    (hps : edbRead P t.store t.EDB_head_ptr (headLen P) = P.encodeHead t.EDB_head)
    (hlim : 1 ≤ limit P t) (r : List Byte) (hr : r.length = t.EDB_head.rec_size) :
    count (clear P t) = 0 ∧
    limit P (clear P t) = limit P t ∧
    (appendRec P (clear P t) r).1 = EDB_Status.EDB_OK ∧
    count (appendRec P (clear P t) r).2 = 1 ∧
    (∀ buf, readResult P (appendRec P (clear P t) r).2 1 buf = (EDB_Status.EDB_OK, r)) := by
  obtain ⟨c1, c2, c3⟩ := clear_spec P hP t hwf hps
  have hwfc : WellFormed P (clear P t) :=
    hwf.of_fields c1 c2 0 c3 (Nat.zero_le _) (ulongMod_pos P)
  have hlimc : limit P (clear P t) = limit P t := by unfold limit; rw [c3]
  have hcnt : count (clear P t) = 0 := by unfold count; rw [c3]
  have hrs : (clear P t).EDB_head.rec_size = t.EDB_head.rec_size := by rw [c3]
  obtain ⟨t', hrun, e1, e2, e3, hnew, -, -⟩ :=
    appendRec_spec P hP (clear P t) hwfc r (by rw [hcnt, hlimc]; omega) (by rw [hrs]; exact hr)
  have hL := hwfc.layout hP (by rw [hlimc]; exact hlim)
  have hL' : Layout P t' (limit P (clear P t)) := hL.of_eq e1 e2 (by rw [e3])
  rw [hcnt] at e3 hnew
  have e5 : t'.EDB_head.n_recs = 1 := by rw [e3]
  have e4 : t'.EDB_head.rec_size = (clear P t).EDB_head.rec_size := by rw [e3]
  rw [hrun]
  refine ⟨hcnt, hlimc, rfl, e5, ?_⟩
  intro buf
  rw [readResult_in_range P t' _ 1 buf hL' (Nat.le_refl _) (by omega) (by rw [hlimc]; exact hlim),
    e2, e4, hnew]

end EDB

theorem tableABC_on_store :
    EDB.edbRead avr tableABC.store tableABC.EDB_head_ptr (EDB.headLen avr)
      = avr.encodeHead tableABC.EDB_head := by
  decide

/-- C13 at a concrete input: `clear()` on `tableABC`, then `appendRec(recD)`. -/
theorem clear_then_append_witness :
    EDB.count (EDB.clear avr tableABC) = 0 ∧
    EDB.limit avr (EDB.clear avr tableABC) = EDB.limit avr tableABC ∧
    (EDB.appendRec avr (EDB.clear avr tableABC) recD).1 = EDB_Status.EDB_OK ∧
    EDB.count (EDB.appendRec avr (EDB.clear avr tableABC) recD).2 = 1 ∧
    (∀ buf, EDB.readResult avr (EDB.appendRec avr (EDB.clear avr tableABC) recD).2 1 buf
      = (EDB_Status.EDB_OK, recD)) :=
  EDB.clear_then_append avr avr_valid tableABC tableABC_wf tableABC_on_store (by decide) recD
    (by decide)

/-! ## Insert positions -/

namespace EDB

/-- With `recno = 0` the loop test `i >= recno` of `insertRec` is always true:
the loop uses up any amount of fuel. -/
theorem insertLoop_zero (P : Platform) :
    ∀ (fuel : Nat) (t : EDB) (i : Nat) (buf : List Byte), insertLoop P 0 fuel t i buf = none := by
  intro fuel
  induction fuel with
  | zero => intro t i buf; rfl
  | succ fuel ih =>
    intro t i buf
    rw [insertLoop, if_pos (Nat.zero_le i)]
    exact ih _ _ _

/-- On a table that is not full `insertRec(0, r)` does not return. -/
theorem insertRec_zero (P : Platform) (t : EDB) (r : List Byte) (fuel : Nat)
    (h : count t ≠ limit P t) : insertRec P fuel t 0 r = none := by
  unfold insertRec
  rw [if_neg h, if_neg (by omega), if_neg (by omega), insertLoop_zero]

end EDB

/-- C14 (failing input): `tableABC` has `0 < count() < limit()`, and
`insertRec(0, recD)` on it does not return `EDB_OUT_OF_RANGE`: the test
`recno < 0` never fires and the loop `for (i = n_recs; i >= 0; i--)` never
ends, whatever the fuel. -/
theorem insertRec_zero_never_returns :
    0 < EDB.count tableABC ∧ EDB.count tableABC < EDB.limit avr tableABC ∧
    ∀ fuel, EDB.insertRec avr fuel tableABC 0 recD = none :=
  ⟨by decide, by decide, fun fuel => EDB.insertRec_zero avr tableABC recD fuel (by decide)⟩

namespace EDB

/-- C15: on an open table with `0 < count() < limit()`, `insertRec(recno, r)`
with `recno > count()`, `count() + 1` included, returns `EDB_OUT_OF_RANGE`
and leaves the engine, store and header, unchanged; `recno = count()` is
accepted: on a well-formed table, with a record of `rec_size` bytes and fuel
for two loop tests, the call returns `EDB_OK`. -/
theorem insertRec_past_end (P : Platform) (t : EDB) (_ho : IsOpen P t) (r : List Byte)
    (fuel : Nat) (hpos : 0 < count t) (hfull : count t < limit P t) :
    (∀ recno, recno > count t →
      insertRec P fuel t recno r = some (EDB_Status.EDB_OUT_OF_RANGE, t)) ∧
    insertRec P fuel t (count t + 1) r = some (EDB_Status.EDB_OUT_OF_RANGE, t) ∧
    (P.Valid → WellFormed P t → r.length = t.EDB_head.rec_size → 1 < fuel →
      ∃ t', insertRec P fuel t (count t) r = some (EDB_Status.EDB_OK, t')) := by
  have hout : ∀ recno, recno > count t →
      insertRec P fuel t recno r = some (EDB_Status.EDB_OUT_OF_RANGE, t) := by
    intro recno hrec
    unfold insertRec
    rw [if_neg (by omega), if_pos ⟨hpos, Or.inr hrec⟩]
  refine ⟨hout, hout _ (by omega), ?_⟩
  intro hP hwf hr hfuel
  obtain ⟨t', hrun, -⟩ :=
    insertRec_spec P hP t hwf (count t) r hfull hpos (Nat.le_refl _) hr fuel (by omega)
  exact ⟨t', hrun⟩

end EDB

/-- C15 at a concrete input: `tableABC` holds 3 records and has room for 22. -/
theorem insertRec_past_end_witness :
    (∀ recno, recno > EDB.count tableABC →
      EDB.insertRec avr 2 tableABC recno recD = some (EDB_Status.EDB_OUT_OF_RANGE, tableABC)) ∧
    EDB.insertRec avr 2 tableABC (EDB.count tableABC + 1) recD
      = some (EDB_Status.EDB_OUT_OF_RANGE, tableABC) ∧
    (∃ t', EDB.insertRec avr 2 tableABC (EDB.count tableABC) recD
      = some (EDB_Status.EDB_OK, t')) :=
  have h := EDB.insertRec_past_end avr tableABC tableABC_open recD 2 (by decide) (by decide)
  ⟨h.1, h.2.1, h.2.2 avr_valid tableABC_wf (by decide) (by decide)⟩

/-- C16 (failing input): `tableEmpty` has `count() == 0` and `limit() == 22`;
`insertRec(2, recD)` on it returns `EDB_OK` for any fuel `≥ 1`, makes `count()`
equal to `1` and writes `recD` into slot 2 (addresses 15..18), while slot 1,
the only record `readRec` can now reach, still holds what the store held. -/
theorem insertRec_empty_accepts_two :
    EDB.count tableEmpty = 0 ∧ EDB.limit avr tableEmpty = 22 ∧
    (List.range 4).map (fun j => tableEmpty.store (15 + j)) = [0, 0, 0, 0] ∧
    ∀ fuel, (EDB.insertRec avr (fuel + 1) tableEmpty 2 recD).map
        (fun res => (res.1, EDB.count res.2,
          (List.range 4).map (fun j => res.2.store (15 + j)),
          EDB.readResult avr res.2 1 []))
      = some (EDB_Status.EDB_OK, 1, recD, EDB_Status.EDB_OK, [0, 0, 0, 0]) := by
  refine ⟨by decide, by decide, by decide, ?_⟩
  intro fuel
  rfl

/-! ## Delete past the end -/

namespace EDB

/-- C17: `deleteRec(recno)` with `recno > count()` returns `EDB_OUT_OF_RANGE`
and leaves the engine unchanged: `count()`, the cached header and every byte
of the store, the header bytes included. -/
theorem deleteRec_past_end (P : Platform) (t : EDB) (fuel recno : Nat)
    (h : recno > count t) :
    deleteRec P fuel t recno = some (EDB_Status.EDB_OUT_OF_RANGE, t) := by
  unfold deleteRec
  simp only [count] at h
  rw [if_pos (Or.inr h)]

end EDB

/-- C17 at a concrete input: `deleteRec(4)` on `tableABC`. -/
theorem deleteRec_past_end_witness :
    EDB.deleteRec avr 0 tableABC 4 = some (EDB_Status.EDB_OUT_OF_RANGE, tableABC) :=
  EDB.deleteRec_past_end avr tableABC 0 4 (by decide)

/-! ## Where the writes go -/

theorem tableWide_wf : EDB.WellFormed avr tableWide :=
  ⟨⟨by decide, by decide, by decide, ⟨by decide, by decide, by decide, by decide⟩⟩,
    by decide, by decide, by decide, by decide⟩

/-- C18 (failing inputs): two well-formed tables with
`table_size ≥ sizeof(EDB_Header) + rec_size`, and calls that return after
writing outside `[base, base + table_size)`.  On `tableEmpty` (region
`[0, 100)`) `insertRec(30, recD)` returns `EDB_OK` and changes address 127.
On `tableWide` (region `[50, 150)`) `updateRec(0, recWide)` returns `EDB_OK`
and changes address 49. -/
theorem writes_outside_region :
    (EDB.WellFormed avr tableEmpty ∧
      avr.headerSize + tableEmpty.EDB_head.rec_size ≤ tableEmpty.EDB_head.table_size ∧
      tableEmpty.EDB_head_ptr = 0 ∧
      tableEmpty.EDB_head_ptr + tableEmpty.EDB_head.table_size = 100 ∧
      tableEmpty.store 127 = 0 ∧
      ∀ fuel, (EDB.insertRec avr (fuel + 1) tableEmpty 30 recD).map
          (fun res => (res.1, res.2.store 127)) = some (EDB_Status.EDB_OK, 13)) ∧
    (EDB.WellFormed avr tableWide ∧
      avr.headerSize + tableWide.EDB_head.rec_size ≤ tableWide.EDB_head.table_size ∧
      tableWide.EDB_head_ptr = 50 ∧
      tableWide.EDB_head_ptr + tableWide.EDB_head.table_size = 150 ∧
      tableWide.store 49 = 0 ∧
      (EDB.updateRec avr tableWide 0 recWide).1 = EDB_Status.EDB_OK ∧
      (EDB.updateRec avr tableWide 0 recWide).2.store 49 = 21) := by
  refine ⟨⟨tableEmpty_wf, by decide, by decide, by decide, by decide, ?_⟩,
    tableWide_wf, by decide, by decide, by decide, by decide, by decide, by decide⟩
  intro fuel
  rfl

/-! ## Chaining operations -/

namespace EDB

/-- A successful append, seen through `readRec`: the result is well-formed,
its header is on the store, the new record is read at `count() + 1` and the
old ones are read as before. -/
theorem appendRec_reads (P : Platform) (hP : P.Valid) (t : EDB) (hwf : WellFormed P t)
    (r : List Byte) (hfull : count t < limit P t) (hr : r.length = t.EDB_head.rec_size) :
    ∃ t' : EDB,
      appendRec P t r = (EDB_Status.EDB_OK, t') ∧
      WellFormed P t' ∧
      count t' = count t + 1 ∧
      limit P t' = limit P t ∧
      t'.EDB_head.rec_size = t.EDB_head.rec_size ∧
      (∀ buf, readResult P t' (count t + 1) buf = (EDB_Status.EDB_OK, r)) ∧
      (∀ i buf, 1 ≤ i → i ≤ count t → readResult P t' i buf = readResult P t i buf) := by
  obtain ⟨t', hrun, e1, e2, e3, hnew, hframe, -⟩ := appendRec_spec P hP t hwf r hfull hr
  have hL := hwf.layout hP (by omega)
  have hL' : Layout P t' (limit P t) := hL.of_eq e1 e2 (by rw [e3])
  have e4 : t'.EDB_head.rec_size = t.EDB_head.rec_size := by rw [e3]
  have e5 : t'.EDB_head.n_recs = count t + 1 := by rw [e3]
  have hwf' : WellFormed P t' :=
    hwf.of_fields e1 e2 _ e3 (by omega) (hwf.count_succ_lt hP)
  refine ⟨t', hrun, hwf', e5, by unfold limit; rw [e3], e4, ?_, ?_⟩
  · intro buf
    rw [readResult_in_range P t' (limit P t) _ buf hL' (by omega) (by omega) (by omega), e2, e4,
      hnew]
  · intro i buf hi1 hin
    simp only [count] at hin hfull hframe e5
    rw [readResult_in_range P t' (limit P t) i buf hL' hi1 (by omega) (by omega),
      readResult_in_range P t (limit P t) i buf hL hi1 hin (by omega), e2, e4]
    congr 1
    apply slotBytes_congr P t (limit P t) i _ _ hL hi1 (by omega)
    intro x hx1 hx2
    have hm : i * t.EDB_head.rec_size ≤ t.EDB_head.n_recs * t.EDB_head.rec_size :=
      Nat.mul_le_mul_right _ hin
    exact hframe x (by omega)

/-- A successful shifting insert, seen through `readRec`. -/
theorem insertRec_reads (P : Platform) (hP : P.Valid) (t : EDB) (hwf : WellFormed P t)
    (k : Nat) (r : List Byte) (hfull : count t < limit P t) (hk1 : 1 ≤ k) (hkn : k ≤ count t)
    (hr : r.length = t.EDB_head.rec_size) (fuel : Nat) (hfuel : count t + 1 - k < fuel) :
    ∃ t' : EDB,
      insertRec P fuel t k r = some (EDB_Status.EDB_OK, t') ∧
      WellFormed P t' ∧
      count t' = count t + 1 ∧
      limit P t' = limit P t ∧
      t'.EDB_head.rec_size = t.EDB_head.rec_size ∧
      (∀ buf, readResult P t' k buf = (EDB_Status.EDB_OK, r)) ∧
      (∀ i buf, 1 ≤ i → i < k → readResult P t' i buf = readResult P t i buf) ∧
      (∀ i buf, k ≤ i → i ≤ count t → readResult P t' (i + 1) buf = readResult P t i buf) := by
  obtain ⟨t', hrun, e1, e2, e3, hk, hlow, hup, -, -⟩ :=
    insertRec_spec P hP t hwf k r hfull hk1 hkn hr fuel hfuel
  have hL := hwf.layout hP (by omega)
  have hL' : Layout P t' (limit P t) := hL.of_eq e1 e2 (by rw [e3])
  have e4 : t'.EDB_head.rec_size = t.EDB_head.rec_size := by rw [e3]
  have e5 : t'.EDB_head.n_recs = count t + 1 := by rw [e3]
  have hwf' : WellFormed P t' :=
    hwf.of_fields e1 e2 _ e3 (by omega) (hwf.count_succ_lt hP)
  simp only [count] at hfull hkn hup e5
  refine ⟨t', hrun, hwf', e5, by unfold limit; rw [e3], e4, ?_, ?_, ?_⟩
  · intro buf
    rw [readResult_in_range P t' (limit P t) k buf hL' hk1 (by omega) (by omega), e2, e4, hk]
  · intro i buf hi hik
    rw [readResult_in_range P t' (limit P t) i buf hL' hi (by omega) (by omega),
      readResult_in_range P t (limit P t) i buf hL hi (by omega) (by omega), e2, e4,
      hlow i hi hik]
  · intro i buf hki hin
    simp only [count] at hin
    rw [readResult_in_range P t' (limit P t) (i + 1) buf hL' (by omega) (by omega) (by omega),
      readResult_in_range P t (limit P t) i buf hL (by omega) (by omega) (by omega), e2, e4,
      hup i hki hin]

/-- A successful delete, seen through `readRec`. -/
theorem deleteRec_reads (P : Platform) (hP : P.Valid) (t : EDB) (hwf : WellFormed P t)
    (k : Nat) (hk1 : 1 ≤ k) (hkn : k ≤ count t) (fuel : Nat) (hfuel : count t - k < fuel) :
    ∃ t' : EDB,
      deleteRec P fuel t k = some (EDB_Status.EDB_OK, t') ∧
      WellFormed P t' ∧
      count t' = count t - 1 ∧
      limit P t' = limit P t ∧
      t'.EDB_head.rec_size = t.EDB_head.rec_size ∧
      (∀ i buf, 1 ≤ i → i < k → readResult P t' i buf = readResult P t i buf) ∧
      (∀ i buf, k ≤ i → i + 1 ≤ count t →
        readResult P t' i buf = readResult P t (i + 1) buf) := by
  obtain ⟨t', hrun, e1, e2, e3, hlow, hup, -, -⟩ := deleteRec_spec P hP t hwf k hk1 hkn fuel hfuel
  have hcap := hwf.capacity
  have hcnt := hwf.count_succ_lt hP
  have hL := hwf.layout hP (by omega)
  have hL' : Layout P t' (limit P t) := hL.of_eq e1 e2 (by rw [e3])
  have e4 : t'.EDB_head.rec_size = t.EDB_head.rec_size := by rw [e3]
  have e5 : t'.EDB_head.n_recs = count t - 1 := by rw [e3]
  have hwf' : WellFormed P t' := hwf.of_fields e1 e2 _ e3 (by omega) (by omega)
  simp only [count] at hkn hup hcap e5
  refine ⟨t', hrun, hwf', e5, by unfold limit; rw [e3], e4, ?_, ?_⟩
  · intro i buf hi hik
    rw [readResult_in_range P t' (limit P t) i buf hL' hi (by omega) (by omega),
      readResult_in_range P t (limit P t) i buf hL hi (by omega) (by omega), e2, e4,
      hlow i hi hik]
  · intro i buf hki hin
    simp only [count] at hin
    rw [readResult_in_range P t' (limit P t) i buf hL' (by omega) (by omega) (by omega),
      readResult_in_range P t (limit P t) (i + 1) buf hL (by omega) (by omega) (by omega),
      e2, e4, hup i hki hin]

end EDB

/-! ## The scenario -/

namespace EDB

/-- A table created with sizes that fit is well-formed and empty. -/
theorem create_wf (P : Platform) (hP : P.Valid) (t0 : EDB) (base ts rs : Nat)
    (hfit : base + ts ≤ P.ulongMod) (hts : ts < P.ulongMod) (hrs1 : 1 ≤ rs)
    (hrs : rs < P.uintMod) (hhs : P.headerSize ≤ ts) :
    WellFormed P (create P t0 base ts rs).2 ∧
    count (create P t0 base ts rs).2 = 0 ∧
    limit P (create P t0 base ts rs).2 = (ts - P.headerSize) / rs ∧
    (create P t0 base ts rs).2.EDB_head.rec_size = rs := by
  have hpos := hP.header_pos
  have hlim : limit P (create P t0 base ts rs).2 = (ts - P.headerSize) / rs := by
    simp only [create, writeHead, limit]
    rw [usub_eq P hhs hts]
  refine ⟨⟨⟨?_, rfl, rfl, ⟨hP.flag_lt, ulongMod_pos P, hrs, hts⟩⟩, hrs1, hhs, hfit, ?_⟩,
    rfl, hlim, rfl⟩
  · show base < P.ulongMod
    omega
  · show 0 ≤ limit P (create P t0 base ts rs).2
    exact Nat.zero_le _

/-- C19 (as amended): with `rec_size = 4` and `table_size = 100`, for any
4-byte records `A`, `B`, `C`, `D`: after `create` and the appends of `A`, `B`,
`C` the count is 3; `insertRec(2, D)` returns `EDB_OK` and the records at
positions 1..4 read `A`, `D`, `B`, `C`; `deleteRec(1)` then returns `EDB_OK`,
the records at positions 1..3 read `D`, `B`, `C` and `count()` is 3. -/
theorem scenario_insert_delete (P : Platform) (hP : P.Valid) (t0 : EDB) (base : Nat)
    (hbase : base + 100 < P.ulongMod) (hhs : P.headerSize + 16 ≤ 100) (huint : 4 < P.uintMod)
    (A B C D : List Byte) (hA : A.length = 4) (hB : B.length = 4) (hC : C.length = 4)
    (hD : D.length = 4) (fuel : Nat) (hfuel : 3 < fuel) :
    count (scenarioABC P t0 base A B C) = 3 ∧
    ∃ s4 s5 : EDB,
      insertRec P fuel (scenarioABC P t0 base A B C) 2 D = some (EDB_Status.EDB_OK, s4) ∧
      (∀ buf, readResult P s4 1 buf = (EDB_Status.EDB_OK, A)) ∧
      (∀ buf, readResult P s4 2 buf = (EDB_Status.EDB_OK, D)) ∧
      (∀ buf, readResult P s4 3 buf = (EDB_Status.EDB_OK, B)) ∧
      (∀ buf, readResult P s4 4 buf = (EDB_Status.EDB_OK, C)) ∧
      deleteRec P fuel s4 1 = some (EDB_Status.EDB_OK, s5) ∧
      (∀ buf, readResult P s5 1 buf = (EDB_Status.EDB_OK, D)) ∧
      (∀ buf, readResult P s5 2 buf = (EDB_Status.EDB_OK, B)) ∧
      (∀ buf, readResult P s5 3 buf = (EDB_Status.EDB_OK, C)) ∧
      count s5 = 3 := by
  obtain ⟨hwf0, c0, l0, r0⟩ :=
    create_wf P hP t0 base 100 4 (by omega) (by omega) (by decide) huint (by omega)
  have hl0 : 4 ≤ limit P (create P t0 base 100 4).2 := by rw [l0]; omega
  obtain ⟨s1, h1, hwf1, c1, l1, r1, n1, -⟩ :=
    appendRec_reads P hP _ hwf0 A (by omega) (by rw [r0]; exact hA)
  rw [c0] at c1 n1
  obtain ⟨s2, h2, hwf2, c2, l2, r2, n2, o2⟩ :=
    appendRec_reads P hP s1 hwf1 B (by omega) (by rw [r1, r0]; exact hB)
  rw [c1] at c2 n2 o2
  obtain ⟨s3, h3, hwf3, c3, l3, r3, n3, o3⟩ :=
    appendRec_reads P hP s2 hwf2 C (by omega) (by rw [r2, r1, r0]; exact hC)
  rw [c2] at c3 n3 o3
  have hs3 : scenarioABC P t0 base A B C = s3 := by
    simp only [scenarioABC, h1, h2, h3]
  rw [hs3]
  obtain ⟨s4, h4, hwf4, c4, l4, r4, n4, lo4, up4⟩ :=
    insertRec_reads P hP s3 hwf3 2 D (by omega) (by decide) (by omega)
      (by rw [r3, r2, r1, r0]; exact hD) fuel (by omega)
  rw [c3] at c4 up4
  obtain ⟨s5, h5, hwf5, c5, l5, r5, lo5, up5⟩ :=
    deleteRec_reads P hP s4 hwf4 1 (by decide) (by omega) fuel (by omega)
  rw [c4] at c5 up5
  have a3 : ∀ buf, readResult P s3 1 buf = (EDB_Status.EDB_OK, A) := by
    intro buf
    rw [o3 1 buf (by decide) (by decide), o2 1 buf (by decide) (by decide)]
    exact n1 buf
  have b3 : ∀ buf, readResult P s3 2 buf = (EDB_Status.EDB_OK, B) := by
    intro buf
    rw [o3 2 buf (by decide) (by decide)]
    exact n2 buf
  have a4 : ∀ buf, readResult P s4 1 buf = (EDB_Status.EDB_OK, A) := by
    intro buf
    rw [lo4 1 buf (by decide) (by decide)]
    exact a3 buf
  have b4 : ∀ buf, readResult P s4 3 buf = (EDB_Status.EDB_OK, B) := by
    intro buf
    rw [up4 2 buf (by decide) (by decide)]
    exact b3 buf
  have d4 : ∀ buf, readResult P s4 4 buf = (EDB_Status.EDB_OK, C) := by
    intro buf
    rw [up4 3 buf (by decide) (by decide)]
    exact n3 buf
  refine ⟨c3, s4, s5, h4, a4, n4, b4, d4, h5, ?_, ?_, ?_, c5⟩
  · intro buf
    rw [up5 1 buf (by decide) (by decide)]
    exact n4 buf
  · intro buf
    rw [up5 2 buf (by decide) (by decide)]
    exact b4 buf
  · intro buf
    rw [up5 3 buf (by decide) (by decide)]
    exact d4 buf

end EDB

/-- C19 at a concrete input: the scenario on the AVR platform at base 0 with
the records `recA`, `recB`, `recC`, `recD`. -/
theorem scenario_insert_delete_witness :
    EDB.count (EDB.scenarioABC avr blank 0 recA recB recC) = 3 ∧
    ∃ s4 s5 : EDB,
      EDB.insertRec avr 4 (EDB.scenarioABC avr blank 0 recA recB recC) 2 recD
        = some (EDB_Status.EDB_OK, s4) ∧
      (∀ buf, EDB.readResult avr s4 1 buf = (EDB_Status.EDB_OK, recA)) ∧
      (∀ buf, EDB.readResult avr s4 2 buf = (EDB_Status.EDB_OK, recD)) ∧
      (∀ buf, EDB.readResult avr s4 3 buf = (EDB_Status.EDB_OK, recB)) ∧
      (∀ buf, EDB.readResult avr s4 4 buf = (EDB_Status.EDB_OK, recC)) ∧
      EDB.deleteRec avr 4 s4 1 = some (EDB_Status.EDB_OK, s5) ∧
      (∀ buf, EDB.readResult avr s5 1 buf = (EDB_Status.EDB_OK, recD)) ∧
      (∀ buf, EDB.readResult avr s5 2 buf = (EDB_Status.EDB_OK, recB)) ∧
      (∀ buf, EDB.readResult avr s5 3 buf = (EDB_Status.EDB_OK, recC)) ∧
      EDB.count s5 = 3 :=
  EDB.scenario_insert_delete avr avr_valid blank 0 (by decide) (by decide) (by decide)
    recA recB recC recD (by decide) (by decide) (by decide) (by decide) 4 (by decide)

/-- C19 (counterexample): on the AVR platform, with the pairwise distinct
records `recA`, `recB`, `recC`, `recD`, the scenario ends with `count() == 3`,
not `2`: four records were stored and one was deleted. -/
theorem scenario_count_counterexample :
    recA ≠ recB ∧ recA ≠ recC ∧ recA ≠ recD ∧ recB ≠ recC ∧ recB ≠ recD ∧ recC ≠ recD ∧
    tableABC = EDB.scenarioABC avr blank 0 recA recB recC ∧
    EDB.count tableABC = 3 ∧
    EDB.insertRec avr 3 tableABC 2 recD = some (EDB_Status.EDB_OK, tableADBC) ∧
    EDB.deleteRec avr 4 tableADBC 1 = some (EDB_Status.EDB_OK, tableDBC) ∧
    EDB.count tableDBC = 3 ∧
    EDB.count tableDBC ≠ 2 :=
  ⟨by decide, by decide, by decide, by decide, by decide, by decide, rfl, by decide, rfl, rfl,
    by decide, by decide⟩

/-! ## Insert, then delete -/

namespace EDB

/-- Two stores read the same over a block only if they agree on every byte of
the block. -/
theorem edbRead_inj (P : Platform) (st st' : Store) (ee n : Nat)
    (hfit : ee + n ≤ P.ulongMod) (h : edbRead P st ee n = edbRead P st' ee n) :
    ∀ x, ee ≤ x → x < ee + n → st x = st' x := by
  intro x hx1 hx2
  have hee : ee < P.ulongMod := by omega
  rw [edbRead_eq_map P st n ee hee, edbRead_eq_map P st' n ee hee, List.map_inj_left] at h
  have := h (x - ee) (List.mem_range.mpr (by omega))
  have hx : ee + (x - ee) = x := by omega
  rw [hx, Nat.mod_eq_of_lt (by omega)] at this
  exact this

/-- Every address of the first `n` slots lies in one of them. -/
theorem slot_of_address (tp rs n x : Nat) (hrs : 1 ≤ rs) (hx1 : tp ≤ x) (hx2 : x < tp + n * rs) :
    ∃ i, 1 ≤ i ∧ i ≤ n ∧ tp + (i - 1) * rs ≤ x ∧ x < tp + i * rs := by
  have h1 : (x - tp) / rs * rs ≤ x - tp := Nat.div_mul_le_self _ _
  have h2 : x - tp < rs * ((x - tp) / rs + 1) := Nat.lt_mul_div_succ _ (by omega)
  have hxn : x - tp < rs * n := by rw [Nat.mul_comm]; omega
  have h3 : (x - tp) / rs < n := Nat.div_lt_of_lt_mul hxn
  rw [Nat.mul_comm, Nat.succ_mul] at h2
  generalize (x - tp) / rs = q at h1 h2 h3
  refine ⟨q + 1, by omega, by omega, ?_, ?_⟩
  · rw [Nat.add_sub_cancel]; omega
  · rw [Nat.succ_mul]; omega

/-- C20: on a well-formed open table (cached header on the store) with `n`
records that is not full, for `1 ≤ k ≤ n` and a record `r` of `rec_size` bytes,
`insertRec(k, r)` followed by `deleteRec(k)` returns `EDB_OK` twice (fuel above
`n + 1 - k` is enough for both loops) and restores the table: `count()` is `n`
again, the cached header and the header bytes on the store are the original
ones, `readRec(i)` is as before for `1 ≤ i ≤ n`, and no byte of the store
outside slot `n + 1` differs. -/
theorem insert_then_delete (P : Platform) (hP : P.Valid) (t : EDB) (hwf : WellFormed P t)
    (hps : edbRead P t.store t.EDB_head_ptr (headLen P) = P.encodeHead t.EDB_head)
    (k : Nat) (r : List Byte) (hfull : count t < limit P t) (hk1 : 1 ≤ k) (hkn : k ≤ count t)
    (hr : r.length = t.EDB_head.rec_size) (fuel : Nat) (hfuel : count t + 1 - k < fuel) :
    ∃ t1 t2 : EDB,
      insertRec P fuel t k r = some (EDB_Status.EDB_OK, t1) ∧
      deleteRec P fuel t1 k = some (EDB_Status.EDB_OK, t2) ∧
      count t2 = count t ∧
      t2.EDB_head = t.EDB_head ∧
      t2.EDB_head_ptr = t.EDB_head_ptr ∧
      edbRead P t2.store t.EDB_head_ptr (headLen P)
        = edbRead P t.store t.EDB_head_ptr (headLen P) ∧
      (∀ i buf, 1 ≤ i → i ≤ count t → readResult P t2 i buf = readResult P t i buf) ∧
      (∀ x, (x < t.EDB_table_ptr + count t * t.EDB_head.rec_size ∨
          t.EDB_table_ptr + (count t + 1) * t.EDB_head.rec_size ≤ x) →
        t2.store x = t.store x) := by
  obtain ⟨t1, hrun1, a1, a2, a3, -, hlow1, hup1, hframe1, -⟩ :=
    insertRec_spec P hP t hwf k r hfull hk1 hkn hr fuel hfuel
  have hwf1 : WellFormed P t1 :=
    hwf.of_fields a1 a2 _ a3 (by omega) (hwf.count_succ_lt hP)
  have c1 : count t1 = count t + 1 := by unfold count; rw [a3]; rfl
  have r1 : t1.EDB_head.rec_size = t.EDB_head.rec_size := by rw [a3]
  obtain ⟨t2, hrun2, b1, b2, b3, hlow2, hup2, hframe2, hstore2⟩ :=
    deleteRec_spec P hP t1 hwf1 k hk1 (by omega) fuel (by omega)
  rw [a1, a2, r1, c1, Nat.add_sub_cancel] at hframe2
  rw [a2, r1] at hlow2
  rw [a2, r1, c1] at hup2
  have hhead : t2.EDB_head = t.EDB_head := by
    rw [b3, c1, a3]
    cases t with
    | mk st hp tp hd => cases hd; rfl
  have hs2 : edbRead P t2.store t.EDB_head_ptr (headLen P)
      = edbRead P t.store t.EDB_head_ptr (headLen P) := by
    rw [hps, ← hhead, b3, ← a1]
    exact hstore2
  have hL := hwf.layout hP (by omega)
  have hL2 : Layout P t2 (limit P t) := hL.of_eq (b1.trans a1) (b2.trans a2) (by rw [hhead])
  have hslot : ∀ i, 1 ≤ i → i ≤ count t →
      slotBytes P t2.store t.EDB_table_ptr t.EDB_head.rec_size i
        = slotBytes P t.store t.EDB_table_ptr t.EDB_head.rec_size i := by
    intro i hi1 hin
    by_cases hik : i < k
    · rw [hlow2 i hi1 hik, hlow1 i hi1 hik]
    · rw [hup2 i (by omega) (by omega), hup1 i (by omega) hin]
  have htp := hL.table_ptr_eq
  have hfit := hL.slots_fit
  have hrs := hL.rec_size_pos
  refine ⟨t1, t2, hrun1, hrun2, by unfold count; rw [hhead], hhead, b1.trans a1, hs2,
    ?_, ?_⟩
  · intro i buf hi1 hin
    have hin' := hin
    simp only [count] at hin' hfull
    rw [readResult_in_range P t2 (limit P t) i buf hL2 hi1 (by rw [hhead]; exact hin')
        (by omega),
      readResult_in_range P t (limit P t) i buf hL hi1 hin' (by omega), b2, a2, hhead,
      hslot i hi1 hin]
  · intro x hx
    have hmono : count t * t.EDB_head.rec_size ≤ limit P t * t.EDB_head.rec_size :=
      Nat.mul_le_mul_right _ (by omega)
    have hstep : (count t + 1) * t.EDB_head.rec_size
        = count t * t.EDB_head.rec_size + t.EDB_head.rec_size := Nat.succ_mul _ _
    by_cases hlo : x < t.EDB_head_ptr
    · rw [hframe2 x (Or.inl hlo), hframe1 x (Or.inl hlo)]
    · by_cases hhd : x < t.EDB_table_ptr
      · have hlen := headLen_eq P hP
        exact edbRead_inj P _ _ _ _ (by rw [hlen]; omega) hs2 x (by omega)
          (by rw [hlen]; omega)
      · by_cases hhi : t.EDB_table_ptr + (count t + 1) * t.EDB_head.rec_size ≤ x
        · rw [hframe2 x (Or.inr (Or.inr (by omega))), hframe1 x (Or.inr (Or.inr hhi))]
        · have hxn : x < t.EDB_table_ptr + count t * t.EDB_head.rec_size := by omega
          obtain ⟨i, hi1, hin, hx1, hx2⟩ :=
            slot_of_address _ _ _ x hrs (by omega) hxn
          have hf := hL.slot_fit hi1 (by omega : i ≤ limit P t)
          exact edbRead_inj P _ _ _ _ (by omega) (hslot i hi1 hin) x hx1 (by omega)

end EDB

/-- C20 at a concrete input: `insertRec(2, recD)` then `deleteRec(2)` on
`tableABC`. -/
theorem insert_then_delete_witness :
    ∃ t1 t2 : EDB,
      EDB.insertRec avr 3 tableABC 2 recD = some (EDB_Status.EDB_OK, t1) ∧
      EDB.deleteRec avr 3 t1 2 = some (EDB_Status.EDB_OK, t2) ∧
      EDB.count t2 = EDB.count tableABC ∧
      t2.EDB_head = tableABC.EDB_head ∧
      t2.EDB_head_ptr = tableABC.EDB_head_ptr ∧
      EDB.edbRead avr t2.store tableABC.EDB_head_ptr (EDB.headLen avr)
        = EDB.edbRead avr tableABC.store tableABC.EDB_head_ptr (EDB.headLen avr) ∧
      (∀ i buf, 1 ≤ i → i ≤ EDB.count tableABC →
        EDB.readResult avr t2 i buf = EDB.readResult avr tableABC i buf) ∧
      (∀ x, (x < tableABC.EDB_table_ptr + EDB.count tableABC * tableABC.EDB_head.rec_size ∨
          tableABC.EDB_table_ptr + (EDB.count tableABC + 1) * tableABC.EDB_head.rec_size ≤ x) →
        t2.store x = tableABC.store x) :=
  EDB.insert_then_delete avr avr_valid tableABC tableABC_wf tableABC_on_store 2 recD
    (by decide) (by decide) (by decide) (by decide) 3 (by decide)
